import Mathlib

/-!
Verification of the deal-discovery service layer (`services/geminiService.ts`,
`constants.ts` and the application shell) against its natural-language
specification.  The TypeScript sources are shallowly embedded: JS strings are
`List Char`, `JSON.parse` is a fuel-based recursive-descent parser `jsonParse`,
the response decoder `parseJsonFromText` (fence stripping, strict parse,
iterative array salvage, loose regex fallback) is translated clause by clause,
and the orchestrators `generateDeals` / `verifyDeal` / `fetchDeals` take the
environment credential, the oracle outcome and the clock/randomness as explicit
parameters.
-/

namespace DealDigger

/-! ### Characters and whitespace

`jsWS` covers the ASCII whitespace JS trims and JSON skips (space, tab,
newline, carriage return); the rarer Unicode space characters recognised by
JS `trim`/`\s` never occur in the texts the claims concern. -/

def jsWS (c : Char) : Bool :=
  c = ' ' || c = '\t' || c = '\n' || c = '\r'

/-- Leading whitespace removal (JSON token skipping and the front half of
`String.prototype.trim`). -/
def dropWS (cs : List Char) : List Char := cs.dropWhile jsWS

/-- Trailing whitespace removal (the back half of `String.prototype.trim`). -/
def dropEndWS (cs : List Char) : List Char := (cs.reverse.dropWhile jsWS).reverse

/-- Model of `String.prototype.trim`. -/
def trimL (cs : List Char) : List Char := dropEndWS (dropWS cs)

def isDig (c : Char) : Bool := '0' ≤ c && c ≤ '9'

/-- The decimal digit character for `m < 10`. -/
def digitChar (m : Nat) : Char := Char.ofNat (48 + m)

/-- Decimal digits of `n`, most significant first; fuel-based so it reduces in
the kernel (`fuel = n + 1` always suffices since `n / 10 < n` for `n ≥ 10`). -/
def natCharsGo : Nat → Nat → List Char → List Char
  | 0, _, acc => acc
  | fuel + 1, n, acc =>
      if n < 10 then digitChar n :: acc
      else natCharsGo fuel (n / 10) (digitChar (n % 10) :: acc)

def natChars (n : Nat) : List Char := natCharsGo (n + 1) n []

/-- Decimal rendering of an integer (the digits `JSON.stringify` and JS string
interpolation produce for integral numbers). -/
def intChars (i : Int) : List Char :=
  if i < 0 then '-' :: natChars i.natAbs else natChars i.toNat

/-! ### The JSON value model

`JVal` models the values `JSON.parse` produces.  Numbers are restricted to
(signed decimal) integers — the only number shapes the claims exercise; the
fraction/exponent grammar is orthogonal to every claim.  Object member lists
are kept in source order; no claim involves duplicate keys. -/

inductive JVal where
  | null
  | bool (b : Bool)
  | num (n : Int)
  | str (s : List Char)
  | arr (elems : List JVal)
  | obj (members : List (List Char × JVal))

/-- A character that appears literally (unescaped) inside a rendered JSON
string: printable, i.e. not a control character. -/
def cleanChar (c : Char) : Bool := 32 ≤ c.toNat

def cleanStr (s : List Char) : Bool := s.all cleanChar

mutual
/-- Values whose strings are control-free; the class over which the codec
round-trip is stated. -/
def Good : JVal → Bool
  | .null => true
  | .bool _ => true
  | .num _ => true
  | .str s => cleanStr s
  | .arr xs => GoodElems xs
  | .obj ms => GoodMembs ms
def GoodElems : List JVal → Bool
  | [] => true
  | x :: xs => Good x && GoodElems xs
def GoodMembs : List (List Char × JVal) → Bool
  | [] => true
  | (k, v) :: ms => cleanStr k && Good v && GoodMembs ms
end

/-- JSON escaping of one string character (quote and backslash escaped,
everything else literal — the shape `JSON.stringify` emits for printable
characters). -/
def escChar (c : Char) : List Char :=
  if c = '"' then ['\\', '"']
  else if c = '\\' then ['\\', '\\']
  else [c]

def escStr (s : List Char) : List Char := s.flatMap escChar

def renderStr (s : List Char) : List Char := '"' :: (escStr s ++ ['"'])

mutual
/-- Canonical (whitespace-free) JSON text of a value. -/
def render : JVal → List Char
  | .num n => intChars n
  | .str s => renderStr s
  | .null => 'n' :: "ull".toList
  | .bool true => 't' :: "rue".toList
  | .bool false => 'f' :: "alse".toList
  | .arr xs => '[' :: (renderElems xs ++ [']'])
  | .obj ms => '{' :: (renderMembs ms ++ ['}'])
def renderElems : List JVal → List Char
  | [] => []
  | [x] => render x
  | x :: y :: r => render x ++ ',' :: renderElems (y :: r)
def renderMembs : List (List Char × JVal) → List Char
  | [] => []
  | [(k, v)] => renderStr k ++ ':' :: render v
  | (k, v) :: m :: r => renderStr k ++ ':' :: render v ++ ',' :: renderMembs (m :: r)
end

/-! ### The `JSON.parse` model

A fuel-based recursive-descent parser for the JSON grammar over the `JVal`
fragment: literals, integer numbers, strings with single-character escapes
(raw control characters rejected, as JS does; the `\uXXXX` form is not
exercised by any claim), arrays and objects, with inter-token whitespace.
`jsonParse` requires the whole input to be consumed up to trailing
whitespace, exactly as `JSON.parse` does. -/

/-- Reads a digit run, returning it with the remainder. -/
def grabDigits : List Char → List Char × List Char
  | [] => ([], [])
  | c :: rest =>
      if isDig c then
        let p := grabDigits rest
        (c :: p.1, p.2)
      else ([], c :: rest)

/-- Numeric value of a digit run. -/
def digitsVal (ds : List Char) : Nat :=
  ds.foldl (fun a c => 10 * a + (c.toNat - 48)) 0

/-- Integer number token (optional minus sign, then digits). -/
def pNum (cs : List Char) : Option (Int × List Char) :=
  match cs with
  | '-' :: rest =>
      let p := grabDigits rest
      if p.1.isEmpty then none else some (-(digitsVal p.1 : Int), p.2)
  | _ =>
      let p := grabDigits cs
      if p.1.isEmpty then none else some ((digitsVal p.1 : Int), p.2)

/-- The value of a single-character escape, if legal. -/
def escDecode (c : Char) : Option Char :=
  if c = '"' then some '"'
  else if c = '\\' then some '\\'
  else if c = '/' then some '/'
  else if c = 'b' then some (Char.ofNat 8)
  else if c = 'f' then some (Char.ofNat 12)
  else if c = 'n' then some '\n'
  else if c = 'r' then some '\r'
  else if c = 't' then some '\t'
  else none

/-- String body after the opening quote: stops at the closing quote, decodes
escapes, rejects raw control characters. -/
def readStr : List Char → Option (List Char × List Char)
  | [] => none
  | c :: rest =>
      if c = '"' then some ([], rest)
      else if c = '\\' then
        match rest with
        | [] => none
        | e :: rest2 =>
            match escDecode e with
            | some d => (readStr rest2).map (fun p => (d :: p.1, p.2))
            | none => none
      else if cleanChar c then (readStr rest).map (fun p => (c :: p.1, p.2))
      else none

mutual
def pVal : Nat → List Char → Option (JVal × List Char)
  | 0, _ => none
  | fuel + 1, cs =>
      match dropWS cs with
      | 'n' :: 'u' :: 'l' :: 'l' :: r => some (.null, r)
      | 't' :: 'r' :: 'u' :: 'e' :: r => some (.bool true, r)
      | 'f' :: 'a' :: 'l' :: 's' :: 'e' :: r => some (.bool false, r)
      | '"' :: r => (readStr r).map (fun p => (.str p.1, p.2))
      | '[' :: r =>
          match dropWS r with
          | [] => none
          | c :: r2 =>
              if c = ']' then some (.arr [], r2)
              else (pElems fuel (c :: r2)).map (fun p => (.arr p.1, p.2))
      | '{' :: r =>
          match dropWS r with
          | [] => none
          | c :: r2 =>
              if c = '}' then some (.obj [], r2)
              else (pMembs fuel (c :: r2)).map (fun p => (.obj p.1, p.2))
      | c :: r =>
          if c = '-' || isDig c then
            (pNum (c :: r)).map (fun p => (.num p.1, p.2))
          else none
      | [] => none
def pElems : Nat → List Char → Option (List JVal × List Char)
  | 0, _ => none
  | fuel + 1, cs =>
      match pVal fuel cs with
      | none => none
      | some (v, r) =>
          match dropWS r with
          | [] => none
          | c :: r2 =>
              if c = ',' then (pElems fuel r2).map (fun p => (v :: p.1, p.2))
              else if c = ']' then some ([v], r2)
              else none
def pMembs : Nat → List Char → Option (List (List Char × JVal) × List Char)
  | 0, _ => none
  | fuel + 1, cs =>
      match dropWS cs with
      | [] => none
      | c0 :: r =>
          if c0 = '"' then
            match readStr r with
            | none => none
            | some (k, r1) =>
                match dropWS r1 with
                | [] => none
                | c1 :: r2 =>
                    if c1 = ':' then
                      match pVal fuel r2 with
                      | none => none
                      | some (v, r3) =>
                          match dropWS r3 with
                          | [] => none
                          | c2 :: r4 =>
                              if c2 = ',' then
                                (pMembs fuel r4).map (fun p => ((k, v) :: p.1, p.2))
                              else if c2 = '}' then some ([(k, v)], r4)
                              else none
                    else none
          else none
end

/-- Model of `JSON.parse`: parse one value, then require only whitespace to
remain. -/
def jsonParse (cs : List Char) : Option JVal :=
  match pVal (cs.length + 1) cs with
  | some (v, rest) => if dropWS rest = [] then some v else none
  | none => none

/-! ### The response decoder `parseJsonFromText`

Embedding of `parseJsonFromText` from `services/geminiService.ts`: trim, strip
a whole-string fenced code block, strict `JSON.parse`, then (arrays only) the
iterative salvage scan, then the loose bracket/brace regex match. -/

def backtick : Char := Char.ofNat 96

/-- JS `\w`: letters, digits, underscore. -/
def wordChar (c : Char) : Bool := c.isAlpha || c.isDigit || c = '_'

/-- The capture the fence regex `^(3 backticks)(\w*)?\s*\n?(.*?)\n?\s*(3
backticks)$` (dot-all) extracts, when the match leaves a non-empty group —
mirroring the guard `fenceMatch && fenceMatch[2]`.  The regex matches exactly
when the trimmed text opens and closes with a three-backtick fence (at least
six characters in total); greedy `(\w*)?\s*\n?` consumes the maximal word run
then the maximal whitespace run after the opening fence, and the lazy group
ends where the maximal whitespace run preceding the closing fence begins
(`\n` is whitespace, so `\n?\s*` is one whitespace run).  When the two runs
overlap the engine backtracks to an empty group, which the guard rejects —
the same outcome `fenceInner` produces via the emptiness test. -/
def fenceInner (cs : List Char) : Option (List Char) :=
  if 6 ≤ cs.length ∧ cs.take 3 = [backtick, backtick, backtick]
      ∧ cs.drop (cs.length - 3) = [backtick, backtick, backtick] then
    let body := (cs.drop 3).take (cs.length - 6)
    let inner := dropEndWS ((body.dropWhile wordChar).dropWhile jsWS)
    if inner.isEmpty then none else some inner
  else none

/-- The prefix of `cs` that ends at the last occurrence of `c` (meaningful
when `c` occurs in `cs`). -/
def upToLast (cs : List Char) (c : Char) : List Char :=
  (cs.reverse.dropWhile (fun x => x ≠ c)).reverse

/-- The loose fallback regex `(\[...\]|\{...\})` with dot-all greedy interiors:
the leftmost position holding `[` with a later `]` (or, failing the bracket
alternative at that position, `{` with a later `}`) starts the match, which
runs to the last such closer. -/
def looseMatch : List Char → Option (List Char)
  | [] => none
  | c :: rest =>
      if c = '[' ∧ rest.contains ']' then some (c :: upToLast rest ']')
      else if c = '{' ∧ rest.contains '}' then some (c :: upToLast rest '}')
      else looseMatch rest

/-- State of the iterative array-salvage scan: extracted objects, the
character buffer, the brace depth (a JS number, so it may pass below zero)
and the inside-a-string flag. -/
structure SalvState where
  ext : List JVal
  buf : List Char
  dep : Int
  ins : Bool

/-- Number of consecutive backslashes immediately before the current
position; `prev` is the already-scanned text in reverse.  Models the
backward `backslashCount` loop of the scan. -/
def bsRun (prev : List Char) : Nat := (prev.takeWhile (fun x => x = '\\')).length

/-- One character of the salvage scan, in source order: (1) toggle the string
flag on an unescaped quote, (2) outside strings adjust brace depth, clearing
the buffer when an object opens at top level, (3) append the character,
(4) at top level outside strings a closing brace triggers a strict-parse
attempt of the buffer and a comma discards the buffer. -/
def salvStep (prev : List Char) (c : Char) (st : SalvState) : SalvState :=
  let st1 :=
    if c = '"' ∧ bsRun prev % 2 = 0 then { st with ins := !st.ins } else st
  let st2 :=
    if !st1.ins ∧ c = '{' then
      if st1.dep = 0 then { st1 with buf := [], dep := st1.dep + 1 }
      else { st1 with dep := st1.dep + 1 }
    else if !st1.ins ∧ c = '}' then { st1 with dep := st1.dep - 1 }
    else st1
  let st3 := { st2 with buf := st2.buf ++ [c] }
  if !st3.ins ∧ st3.dep = 0 ∧ c = '}' then
    if (trimL st3.buf).head? = some '{' then
      match jsonParse st3.buf with
      | some v => { st3 with ext := st3.ext ++ [v], buf := [] }
      | none => st3
    else { st3 with buf := [] }
  else if !st3.ins ∧ st3.dep = 0 ∧ c = ',' then { st3 with buf := [] }
  else st3

def salvGo (prev : List Char) : List Char → SalvState → SalvState
  | [], st => st
  | c :: rest, st => salvGo (c :: prev) rest (salvStep prev c st)

/-- The iterative salvage pass over the array interior. -/
def salvage (arrayContent : List Char) : List JVal :=
  (salvGo [] arrayContent ⟨[], [], 0, false⟩).ext

/-- The decoder.  Returns the parsed value on any successful path and `none`
for the `null` failure sentinel. -/
def parseJsonFromText (text : List Char) (isArrayExpected : Bool) : Option JVal :=
  let t0 := trimL text
  let jsonStr :=
    match fenceInner t0 with
    | some inner => trimL inner
    | none => t0
  match jsonParse jsonStr with
  | some v => some v
  | none =>
      let salvaged : Option JVal :=
        if isArrayExpected ∧ jsonStr.head? = some '[' ∧ jsonStr.getLast? = some ']' then
          let arrayContent := trimL ((jsonStr.drop 1).take (jsonStr.length - 2))
          let objs := salvage arrayContent
          if objs.isEmpty then none else some (.arr objs)
        else none
      match salvaged with
      | some v => some v
      | none =>
          match looseMatch jsonStr with
          | some sub => jsonParse sub
          | none => none

/-- A whole-string fenced code block around `t`: opening fence with an
optional language tag, newline, the text, newline, closing fence. -/
def fenceWrap (tag t : List Char) : List Char :=
  backtick :: backtick :: backtick ::
    (tag ++ '\n' :: (t ++ '\n' :: [backtick, backtick, backtick]))

/-! ### JS value coercions used by the orchestrators -/

/-- JS falsiness of a parsed JSON value (`null`, `false`, `0`, `""`). -/
def jsFalsy : JVal → Bool
  | .null => true
  | .bool false => true
  | .num 0 => true
  | .str [] => true
  | _ => false

/-- Property read on a parsed value; objects answer with the last binding for
the key (what a JS object, whose duplicate JSON keys collapsed to the last,
holds), and any other value answers `none` (`undefined`). -/
def getField (v : JVal) (k : List Char) : Option JVal :=
  match v with
  | .obj ms => ms.foldl (fun acc p => if p.1 = k then some p.2 else acc) none
  | _ => none

/-- Object-literal update `{...o, k: v}`: an existing key keeps its position
and takes the new value, a fresh key is appended. -/
def setField (ms : List (List Char × JVal)) (k : List Char) (v : JVal) :
    List (List Char × JVal) :=
  if ms.any (fun p => p.1 = k) then
    ms.map (fun p => if p.1 = k then (p.1, v) else p)
  else ms ++ [(k, v)]

/-- Enumerable own entries produced by object-spread `{...x}`: an object
spreads its members, arrays and strings spread index-keyed elements, and
primitives spread to nothing. -/
def spreadEntries : JVal → List (List Char × JVal)
  | .obj ms => ms
  | .arr xs => xs.enum.map (fun p => (natChars p.1, p.2))
  | .str s => s.enum.map (fun p => (natChars p.1, .str [p.2]))
  | _ => []

mutual
/-- JS string coercion `String(x)` of a parsed JSON value. -/
def jsToString : JVal → List Char
  | .str s => s
  | .num n => intChars n
  | .bool true => "true".toList
  | .bool false => "false".toList
  | .null => "null".toList
  | .arr xs => jsJoin xs
  | .obj _ => "[object Object]".toList
/-- Array coercion: elements joined with commas, `null` elements blank. -/
def jsJoin : List JVal → List Char
  | [] => []
  | [.null] => []
  | [x] => jsToString x
  | .null :: y :: r => ',' :: jsJoin (y :: r)
  | x :: y :: r => jsToString x ++ ',' :: jsJoin (y :: r)
end

/-! ### `encodeURIComponent` -/

def uriUnreserved (c : Char) : Bool :=
  c.isAlpha || c.isDigit ||
    (c = '-' || c = '_' || c = '.' || c = '!' || c = '~' || c = '*' ||
     c = '\'' || c = '(' || c = ')')

def hexDigitU (m : Nat) : Char :=
  if m < 10 then Char.ofNat (48 + m) else Char.ofNat (55 + m)

def pctByte (b : Nat) : List Char := ['%', hexDigitU (b / 16), hexDigitU (b % 16)]

def utf8Bytes (c : Char) : List Nat :=
  let n := c.toNat
  if n < 128 then [n]
  else if n < 2048 then [192 + n / 64, 128 + n % 64]
  else if n < 65536 then [224 + n / 4096, 128 + n / 64 % 64, 128 + n % 64]
  else [240 + n / 262144, 128 + n / 4096 % 64, 128 + n / 64 % 64, 128 + n % 64]

def encodeURIComponentL (s : List Char) : List Char :=
  s.flatMap (fun c =>
    if uriUnreserved c then [c] else (utf8Bytes c).flatMap pctByte)

/-! ### Constants (`constants.ts`) -/

def DEAL_CATEGORIES : List (List Char) :=
  ["Electronics".toList, "Fashion".toList, "Home & Kitchen".toList,
   "Sports & Outdoors".toList, "Books".toList, "Groceries".toList,
   "Beauty & Personal Care".toList, "Toys & Games".toList,
   "Automotive".toList, "Travel".toList]

def INITIAL_DEALS_COUNT : Nat := 6

def MOCK_API_KEY_NOTICE : List Char :=
  ("API_KEY environment variable not found. Using mock data. For live AI features, " ++
   "please ensure the API_KEY is configured in your environment.").toList

def GEMINI_ERROR_MESSAGE : List Char :=
  "Could not connect to AI services. Please check your API key or network connection.".toList

/-! ### The generation orchestrator (`generateDeals`)

The environment credential, the oracle outcome and the clock are explicit
parameters.  `initializeAi` caches the client handle after a successful
construction; since the handle exists exactly when the credential does, the
stateless credential test below is observationally the same gate. -/

/-- Truthiness test of the `VITE_GEMINI_API_KEY` environment value: absent
(`undefined`) and empty values are both falsy under `if (!apiKey)`. -/
def credentialOk : Option (List Char) → Bool
  | none => false
  | some s => !s.isEmpty

def API_KEY_MISSING : List Char := "API_KEY_MISSING".toList

def GEN_FAIL_MESSAGE : List Char := "Failed to generate deals from AI.".toList

inductive Tool where
  | googleSearch

/-- The request configuration: the structured-JSON response hint and the tool
list the code attaches. -/
structure GenConfig where
  responseMimeType : Option (List Char)
  tools : List Tool

/-- Configuration constructed by `generateDeals`: `responseMimeType` is set
up front; enabling search grounding attaches the search tool and deletes the
mime hint. -/
def genConfig (useSearchGrounding : Bool) : GenConfig :=
  let config : GenConfig := { responseMimeType := some ("application/json".toList), tools := [] }
  if useSearchGrounding then
    let config := { config with tools := [Tool.googleSearch] }
    { config with responseMimeType := none }
  else config

structure UserPreferences where
  categories : List (List Char)
  location : List Char
  keywords : List Char

/-- The oracle request: the prompt text is assembled from the preferences and
fed to the oracle (which this model takes as a parameter), so only the
configuration is carried. -/
structure GenRequest where
  config : GenConfig

def genRequest (_prefs : UserPreferences) (useSearchGrounding : Bool) : GenRequest :=
  { config := genConfig useSearchGrounding }

/-- Deal post-processing `{...deal, id, imageUrl}`: the id from the clock and
index, and the image reference seeded from the title (with a `deal-<index>`
fallback for a falsy or absent title) — written after the spread, so it lands
in the output unconditionally. -/
def titleSeed (deal : JVal) (index : Nat) : List Char :=
  match getField deal ("title".toList) with
  | some t => if jsFalsy t then "deal-".toList ++ natChars index else jsToString t
  | none => "deal-".toList ++ natChars index

def picsumUrl (deal : JVal) (index : Nat) : List Char :=
  "https://picsum.photos/seed/".toList ++ encodeURIComponentL (titleSeed deal index) ++
    "/300/200".toList

def withIdAndImage (deal : JVal) (index now : Nat) : JVal :=
  .obj (setField
          (setField (spreadEntries deal) ("id".toList)
            (.str (natChars now ++ '-' :: natChars index)))
          ("imageUrl".toList) (.str (picsumUrl deal index)))

/-- Outcome of `generateDeals`: the request that reached the oracle (when one
was constructed) and either the distinguished error message or the deal
list. -/
structure GenOutcome where
  request : Option GenRequest
  result : Except (List Char) (List JVal)

/-- `generateDeals`.  A missing credential propagates `API_KEY_MISSING`
untouched through the catch-all; any other thrown error is replaced by the
fixed failure message.  A falsy decode result is replaced by `[]` before
mapping; a truthy non-array decode makes `.map` raise a `TypeError`, which
the catch-all also converts to the fixed failure message. -/
def generateDeals (apiKey : Option (List Char)) (prefs : UserPreferences)
    (useSearchGrounding : Bool) (oracle : Except (List Char) (List Char))
    (now : Nat) : GenOutcome :=
  if credentialOk apiKey = false then ⟨none, .error API_KEY_MISSING⟩
  else
    let req := genRequest prefs useSearchGrounding
    match oracle with
    | .error e =>
        ⟨some req, .error (if e = API_KEY_MISSING then e else GEN_FAIL_MESSAGE)⟩
    | .ok text =>
        match parseJsonFromText text true with
        | none => ⟨some req, .ok []⟩
        | some v =>
            if jsFalsy v then ⟨some req, .ok []⟩
            else
              match v with
              | .arr xs =>
                  ⟨some req, .ok (xs.enum.map (fun p => withIdAndImage p.2 p.1 now))⟩
              | _ => ⟨some req, .error GEN_FAIL_MESSAGE⟩

/-! ### The verification orchestrator (`verifyDeal`) -/

def VERIFY_FORMAT_ERR : JVal :=
  .obj [("summary".toList,
          .str "AI could not verify this deal due to response format error.".toList),
        ("score".toList, .num 0)]

def VERIFY_CONN_ERR : JVal :=
  .obj [("summary".toList, .str "Failed to connect to AI for verification.".toList),
        ("score".toList, .num 0)]

/-- `verifyDeal`.  The deal parameter only shapes the prompt handed to the
oracle parameter, so it is unused here.  A missing credential is re-thrown by
the catch-all; an oracle failure is absorbed into the connection-failure
value; a decode returning `null` or any falsy value is absorbed into the
format-error value; any truthy decoded value is returned verbatim. -/
def verifyDeal (apiKey : Option (List Char)) (_deal : JVal)
    (oracle : Except (List Char) (List Char)) : Except (List Char) JVal :=
  if credentialOk apiKey = false then .error API_KEY_MISSING
  else
    match oracle with
    | .error e => if e = API_KEY_MISSING then .error e else .ok VERIFY_CONN_ERR
    | .ok text =>
        match parseJsonFromText text false with
        | some v => if jsFalsy v then .ok VERIFY_FORMAT_ERR else .ok v
        | none => .ok VERIFY_FORMAT_ERR

/-! ### The application shell (`fetchDeals` in the root component) -/

/-- One placeholder deal of the credentials-missing fallback; the two price
strings stand for the `Math.random()`-derived amounts. -/
def mockDeal (i : Nat) (origAmount discAmount : List Char) : JVal :=
  .obj [("id".toList, .str ("mock-".toList ++ natChars i)),
        ("title".toList, .str ("Mock Deal Title ".toList ++ natChars (i + 1))),
        ("description".toList,
          .str ("This is a placeholder deal because the AI service is unavailable. " ++
                "Please configure API_KEY.").toList),
        ("originalPrice".toList, .str ('$' :: origAmount)),
        ("discountedPrice".toList, .str ('$' :: discAmount)),
        ("merchant".toList, .str "Mock Merchant".toList),
        ("category".toList,
          .str (DEAL_CATEGORIES.getD (i % DEAL_CATEGORIES.length) [])),
        ("imageUrl".toList,
          .str ("https://picsum.photos/seed/mockdeal".toList ++ natChars i ++
                "/300/200".toList))]

/-- The deal list and error banner `fetchDeals` leaves in component state. -/
structure FetchState where
  deals : List JVal
  error : Option (List Char)
  apiKeyMissing : Bool

def fetchDeals (apiKey : Option (List Char)) (prefs : UserPreferences)
    (useSearchGrounding : Bool) (oracle : Except (List Char) (List Char))
    (now : Nat) (origAmount discAmount : Nat → List Char) : FetchState :=
  match (generateDeals apiKey prefs useSearchGrounding oracle now).result with
  | .ok ds => ⟨ds, none, false⟩
  | .error m =>
      if m = API_KEY_MISSING then
        ⟨(List.range INITIAL_DEALS_COUNT).map
            (fun i => mockDeal i (origAmount i) (discAmount i)),
          some MOCK_API_KEY_NOTICE, true⟩
      else ⟨[], some (GEMINI_ERROR_MESSAGE ++ (" Details: ".toList ++ m)), false⟩

/-! ## Whitespace, trim and fence lemmas -/

theorem dropWS_cons_false {c : Char} (h : jsWS c = false) (u : List Char) :
    dropWS (c :: u) = c :: u := by
  simp [dropWS, List.dropWhile_cons, h]

theorem dropEndWS_snoc_false {d : Char} (h : jsWS d = false) (u : List Char) :
    dropEndWS (u ++ [d]) = u ++ [d] := by
  simp [dropEndWS, List.dropWhile_cons, h]

theorem dropWS_shape (cs : List Char) :
    dropWS cs = [] ∨ ∃ c r, dropWS cs = c :: r ∧ jsWS c = false := by
  induction cs with
  | nil => exact Or.inl rfl
  | cons c r ih =>
      by_cases h : jsWS c
      · simpa [dropWS, List.dropWhile_cons, h] using ih
      · exact Or.inr ⟨c, r, by simp [dropWS, List.dropWhile_cons, h], by simpa using h⟩

theorem dropEndWS_shape (cs : List Char) :
    dropEndWS cs = [] ∨ ∃ u d, dropEndWS cs = u ++ [d] ∧ jsWS d = false := by
  rcases dropWS_shape cs.reverse with h | ⟨c, r, h, hc⟩
  · left
    have h' : cs.reverse.dropWhile jsWS = [] := h
    simp [dropEndWS, h']
  · right
    refine ⟨r.reverse, c, ?_, hc⟩
    have h' : cs.reverse.dropWhile jsWS = c :: r := h
    simp [dropEndWS, h']

theorem dropEndWS_isPre (cs : List Char) : ∃ s, cs = dropEndWS cs ++ s := by
  obtain ⟨u, hu⟩ := (List.dropWhile_suffix jsWS : cs.reverse.dropWhile jsWS <:+ cs.reverse)
  refine ⟨u.reverse, ?_⟩
  have h2 := congrArg List.reverse hu
  simp only [List.reverse_append, List.reverse_reverse] at h2
  show cs = (cs.reverse.dropWhile jsWS).reverse ++ u.reverse
  exact h2.symm

theorem trimL_trimL (t : List Char) : trimL (trimL t) = trimL t := by
  unfold trimL
  rcases dropEndWS_shape (dropWS t) with h | ⟨u, d, h, hd⟩
  · rw [h]
    rfl
  · obtain ⟨s, hs⟩ := dropEndWS_isPre (dropWS t)
    rw [h] at hs
    rw [h]
    rcases dropWS_shape t with h0 | ⟨c, r, h0, hc⟩
    · rw [h0] at hs
      exact absurd hs (by simp)
    · rw [h0] at hs
      cases u with
      | nil =>
          simp only [List.nil_append, List.cons_append] at hs
          have hdc : d = c := (List.cons.inj hs.symm).1
          subst hdc
          rw [show ([] ++ [d] : List Char) = d :: [] by rfl, dropWS_cons_false hd]
          exact dropEndWS_snoc_false hd []
      | cons a u' =>
          simp only [List.cons_append, List.append_assoc] at hs
          have hac : a = c := (List.cons.inj hs.symm).1
          subst hac
          rw [show ((a :: u') ++ [d] : List Char) = a :: (u' ++ [d]) by rfl, dropWS_cons_false hc]
          rw [show (a :: (u' ++ [d]) : List Char) = (a :: u') ++ [d] by rfl]
          exact dropEndWS_snoc_false hd _

theorem jsonParse_nil : jsonParse [] = none := rfl

theorem jsonParse_backtick (r : List Char) : jsonParse (backtick :: r) = none := by
  have hb : jsWS backtick = false := by decide
  unfold jsonParse
  have h1 : dropWS (backtick :: r) = backtick :: r := dropWS_cons_false hb r
  have h2 : pVal ((backtick :: r).length + 1) (backtick :: r) = none := by
    rw [show (backtick :: r).length + 1 = r.length + 1 + 1 by simp]
    unfold pVal
    rw [h1]
    simp only [backtick]
    simp
    exact fun h => absurd h (by decide)
  rw [h2]

theorem take3_backtick {cs : List Char} (h : cs.take 3 = [backtick, backtick, backtick]) :
    ∃ r, cs = backtick :: r := by
  cases cs with
  | nil => simp at h
  | cons c r =>
      refine ⟨r, ?_⟩
      simp only [List.take_succ_cons, List.cons.injEq] at h
      rw [h.1]

theorem fenceInner_eq_none {cs : List Char}
    (h : cs.take 3 ≠ [backtick, backtick, backtick]) : fenceInner cs = none := by
  unfold fenceInner
  rw [if_neg]
  intro hcond
  exact h hcond.2.1

theorem dropWhile_append_all {p : Char → Bool} :
    ∀ (u xs : List Char), (∀ c ∈ u, p c = true) → (u ++ xs).dropWhile p = xs.dropWhile p
  | [], _, _ => rfl
  | c :: u, xs, h => by
      have hc : p c = true := h c (by simp)
      simp only [List.cons_append, List.dropWhile_cons, hc, if_true]
      exact dropWhile_append_all u xs (fun d hd => h d (by simp [hd]))

theorem dropWhile_append_ne_nil {p : Char → Bool} :
    ∀ (u xs : List Char), u.dropWhile p ≠ [] → (u ++ xs).dropWhile p = u.dropWhile p ++ xs
  | [], _, h => absurd rfl h
  | c :: u, xs, h => by
      by_cases hc : p c
      · simp only [List.dropWhile_cons, hc, if_true] at h ⊢
        simp only [List.cons_append, List.dropWhile_cons, hc, if_true]
        exact dropWhile_append_ne_nil u xs h
      · simp only [List.cons_append, List.dropWhile_cons, hc]
        simp [hc]

theorem dropEndWS_snoc_ws {c : Char} (h : jsWS c = true) (u : List Char) :
    dropEndWS (u ++ [c]) = dropEndWS u := by
  simp [dropEndWS, List.dropWhile_cons, h]

theorem trimL_fenceWrap (tag t : List Char) : trimL (fenceWrap tag t) = fenceWrap tag t := by
  have hb : jsWS backtick = false := by decide
  unfold trimL fenceWrap
  rw [dropWS_cons_false hb]
  have hsplit : backtick :: backtick :: backtick ::
        (tag ++ '\n' :: (t ++ '\n' :: [backtick, backtick, backtick]))
      = (backtick :: backtick :: backtick ::
          (tag ++ '\n' :: (t ++ '\n' :: [backtick, backtick]))) ++ [backtick] := by
    simp
  rw [hsplit, dropEndWS_snoc_false hb]

theorem fenceInner_wrap (tag t : List Char) (htag : ∀ c ∈ tag, wordChar c = true)
    (hT : dropWS t ≠ []) (hne : trimL t ≠ []) :
    fenceInner (fenceWrap tag t) = some (trimL t) := by
  have hmid : fenceWrap tag t
      = backtick :: backtick :: backtick ::
          ((tag ++ '\n' :: (t ++ ['\n'])) ++ [backtick, backtick, backtick]) := by
    simp [fenceWrap]
  set mid : List Char := tag ++ '\n' :: (t ++ ['\n']) with hmiddef
  have hlen : (fenceWrap tag t).length = mid.length + 6 := by
    rw [hmid]
    simp only [List.length_cons, List.length_append]
    simp
  have hcond : 6 ≤ (fenceWrap tag t).length ∧
      (fenceWrap tag t).take 3 = [backtick, backtick, backtick] ∧
      (fenceWrap tag t).drop ((fenceWrap tag t).length - 3) = [backtick, backtick, backtick] := by
    refine ⟨by omega, by rw [hmid]; rfl, ?_⟩
    rw [hlen, hmid]
    have harr : backtick :: backtick :: backtick :: (mid ++ [backtick, backtick, backtick])
        = (backtick :: backtick :: backtick :: mid) ++ [backtick, backtick, backtick] := by
      simp
    rw [harr]
    have hlen2 : mid.length + 6 - 3 = (backtick :: backtick :: backtick :: mid).length := by
      simp only [List.length_cons]
      omega
    rw [hlen2, List.drop_left]
  have hbody : ((fenceWrap tag t).drop 3).take ((fenceWrap tag t).length - 6) = mid := by
    have hdrop3 : (fenceWrap tag t).drop 3 = mid ++ [backtick, backtick, backtick] := by
      rw [hmid]
      rfl
    rw [hdrop3, hlen]
    simp only [Nat.add_sub_cancel]
    exact List.take_left ..
  have h1 : mid.dropWhile wordChar = '\n' :: (t ++ ['\n']) := by
    rw [hmiddef, dropWhile_append_all tag _ htag, List.dropWhile_cons]
    simp [show wordChar '\n' = false from by decide]
  have h2 : ('\n' :: (t ++ ['\n'])).dropWhile jsWS = dropWS t ++ ['\n'] := by
    rw [List.dropWhile_cons]
    simp only [show jsWS '\n' = true from by decide, if_true]
    exact dropWhile_append_ne_nil t ['\n'] hT
  have h3 : dropEndWS (dropWS t ++ ['\n']) = trimL t :=
    dropEndWS_snoc_ws (by decide) (dropWS t)
  have hemp : (trimL t).isEmpty = false := by
    rw [List.isEmpty_eq_false]
    exact hne
  simp only [fenceInner]
  rw [if_pos hcond, hbody, h1, h2, h3, hemp]
  rfl

theorem parseJsonFromText_strict {text : List Char} {v : JVal} (b : Bool)
    (hfence : fenceInner (trimL text) = none)
    (hp : jsonParse (trimL text) = some v) :
    parseJsonFromText text b = some v := by
  simp only [parseJsonFromText, hfence, hp]

theorem parseJsonFromText_fenced (b : Bool) (text inner : List Char) {v : JVal}
    (hfence : fenceInner (trimL text) = some inner)
    (hp : jsonParse (trimL inner) = some v) :
    parseJsonFromText text b = some v := by
  simp only [parseJsonFromText, hfence, hp]

theorem decode_fence_wrap_round_trip (t : List Char) (v : JVal) (b : Bool) (tag : List Char)
    (htag : ∀ c ∈ tag, wordChar c = true)
    (hp : jsonParse (trimL t) = some v) :
    parseJsonFromText t b = some v ∧ parseJsonFromText (fenceWrap tag t) b = some v := by
  have hne : trimL t ≠ [] := by
    intro h
    rw [h, jsonParse_nil] at hp
    exact Option.noConfusion hp
  have hT : dropWS t ≠ [] := by
    intro h
    apply hne
    unfold trimL
    rw [h]
    rfl
  constructor
  · refine parseJsonFromText_strict b ?_ hp
    apply fenceInner_eq_none
    intro htake
    obtain ⟨r, hr⟩ := take3_backtick htake
    rw [hr, jsonParse_backtick] at hp
    exact Option.noConfusion hp
  · refine parseJsonFromText_fenced b (fenceWrap tag t) (trimL t) ?_ ?_
    · rw [trimL_fenceWrap]
      exact fenceInner_wrap tag t htag hT hne
    · rw [trimL_trimL]
      exact hp

theorem decode_fence_wrap_round_trip_witness :
    ((∀ c ∈ ("json".toList), wordChar c = true) ∧
     jsonParse (trimL ("\x7b\"a\":1\x7d".toList)) = some (.obj [("a".toList, .num 1)])) ∧
    (parseJsonFromText ("\x7b\"a\":1\x7d".toList) true = some (.obj [("a".toList, .num 1)]) ∧
     parseJsonFromText (fenceWrap ("json".toList) ("\x7b\"a\":1\x7d".toList)) true
       = some (.obj [("a".toList, .num 1)])) :=
  ⟨⟨by decide, rfl⟩,
   decode_fence_wrap_round_trip _ _ true _ (by decide) rfl⟩

/-! ## Lemmas about field access -/

theorem getFold_append (ms ns : List (List Char × JVal)) (acc : Option JVal) (k : List Char) :
    (ms ++ ns).foldl (fun acc p => if p.1 = k then some p.2 else acc) acc
      = ns.foldl (fun acc p => if p.1 = k then some p.2 else acc)
          (ms.foldl (fun acc p => if p.1 = k then some p.2 else acc) acc) :=
  List.foldl_append ..

theorem getFold_nomatch (k : List Char) :
    ∀ (l : List (List Char × JVal)) (acc : Option JVal),
      (∀ p ∈ l, p.1 ≠ k) →
      l.foldl (fun acc p => if p.1 = k then some p.2 else acc) acc = acc
  | [], _, _ => rfl
  | p :: l, acc, h => by
      have hp : p.1 ≠ k := h p (by simp)
      simp only [List.foldl_cons, if_neg hp]
      exact getFold_nomatch k l acc (fun q hq => h q (by simp [hq]))

theorem getFold_mapped (k : List Char) (v : JVal) :
    ∀ (l : List (List Char × JVal)) (acc : Option JVal),
      l.any (fun p => p.1 = k) →
      (l.map (fun p => if p.1 = k then (p.1, v) else p)).foldl
          (fun acc p => if p.1 = k then some p.2 else acc) acc = some v
  | [], _, h => by simp at h
  | p :: l, acc, h => by
      by_cases hp : p.1 = k
      · simp only [List.map_cons, if_pos hp, List.foldl_cons, if_pos hp]
        by_cases hl : l.any (fun q => q.1 = k)
        · exact getFold_mapped k v l _ hl
        · refine getFold_nomatch k _ _ ?_
          intro q hq
          simp only [List.mem_map] at hq
          obtain ⟨q0, hq0, rfl⟩ := hq
          have hq0k : q0.1 ≠ k := by
            intro hk
            exact hl (List.any_eq_true.mpr ⟨q0, hq0, by simp [hk]⟩)
          simp [hq0k]
      · have hl : l.any (fun q => q.1 = k) := by
          rcases List.any_eq_true.mp h with ⟨q, hq, hqk⟩
          simp only [decide_eq_true_eq] at hqk
          rcases List.mem_cons.mp hq with rfl | hmem
          · exact absurd hqk hp
          · exact List.any_eq_true.mpr ⟨q, hmem, by simp [hqk]⟩
        simp only [List.map_cons, if_neg hp, List.foldl_cons, if_neg hp]
        exact getFold_mapped k v l acc hl

/-- Reading back the key just written by `setField` yields the written value,
whether the key was present (every stale binding was overwritten in place) or
fresh (appended, and `getField` answers with the last binding). -/
theorem getField_setField (ms : List (List Char × JVal)) (k : List Char) (v : JVal) :
    getField (.obj (setField ms k v)) k = some v := by
  unfold getField setField
  by_cases hany : ms.any (fun p => p.1 = k)
  · simp only [hany, if_true]
    exact getFold_mapped k v ms none hany
  · simp only [hany, if_false, getFold_append]
    simp

/-! ## Claim C5 -/

/-- C5: for every `UserPreferences` input, when the credential is absent
`generateDeals` fails with the distinguished `API_KEY_MISSING` condition
(distinct from the message every other failure carries) and constructs no
oracle request, so the remote oracle is never invoked. -/
theorem generateDeals_credentials_missing_no_oracle (apiKey : Option (List Char))
    (prefs : UserPreferences) (b : Bool) (oracle : Except (List Char) (List Char))
    (now : Nat) (h : credentialOk apiKey = false) :
    (generateDeals apiKey prefs b oracle now).result = .error API_KEY_MISSING ∧
    (generateDeals apiKey prefs b oracle now).request = none ∧
    API_KEY_MISSING ≠ GEN_FAIL_MESSAGE := by
  refine ⟨?_, ?_, by decide⟩ <;> simp [generateDeals, h]

theorem generateDeals_credentials_missing_no_oracle_witness :
    credentialOk none = false ∧
    ((generateDeals none ⟨[], [], []⟩ false (.ok []) 0).result = .error API_KEY_MISSING ∧
     (generateDeals none ⟨[], [], []⟩ false (.ok []) 0).request = none ∧
     API_KEY_MISSING ≠ GEN_FAIL_MESSAGE) :=
  ⟨rfl, generateDeals_credentials_missing_no_oracle none ⟨[], [], []⟩ false (.ok []) 0 rfl⟩

/-! ## Claim C3 -/

/-- C3 counterexample: a transport failure whose message is `network down`
surfaces as the fixed message `Failed to generate deals from AI.`; the
underlying message is not preserved in the propagated error (it is neither
equal to it nor contained in it). -/
theorem generateDeals_underlying_message_discarded :
    (generateDeals (some ("key".toList)) ⟨[], [], []⟩ false
        (.error ("network down".toList)) 0).result = .error GEN_FAIL_MESSAGE ∧
    GEN_FAIL_MESSAGE ≠ "network down".toList ∧
    ¬ ("network down".toList <:+: GEN_FAIL_MESSAGE) :=
  ⟨rfl, by decide, by decide⟩

/-- C3 as amended: for every transport failure other than the
missing-credentials condition, `generateDeals` surfaces a distinguished error
carrying the fixed message `Failed to generate deals from AI.` (distinct from
the missing-credentials message), without preserving the underlying
message. -/
theorem generateDeals_oracle_error_fixed_message (apiKey : Option (List Char))
    (prefs : UserPreferences) (b : Bool) (e : List Char) (now : Nat)
    (hk : credentialOk apiKey = true) (he : e ≠ API_KEY_MISSING) :
    (generateDeals apiKey prefs b (.error e) now).result = .error GEN_FAIL_MESSAGE ∧
    GEN_FAIL_MESSAGE ≠ API_KEY_MISSING := by
  refine ⟨?_, by decide⟩
  simp [generateDeals, hk, he]

theorem generateDeals_oracle_error_fixed_message_witness :
    (credentialOk (some ("key".toList)) = true ∧
     ("timeout".toList : List Char) ≠ API_KEY_MISSING) ∧
    (generateDeals (some ("key".toList)) ⟨[], [], []⟩ true
        (.error ("timeout".toList)) 3).result = .error GEN_FAIL_MESSAGE :=
  ⟨⟨rfl, by decide⟩,
   (generateDeals_oracle_error_fixed_message (some ("key".toList)) ⟨[], [], []⟩ true
      ("timeout".toList) 3 rfl (by decide)).1⟩

/-! ## Claim C4 -/

/-- C4 counterexample: a decoded item that already carries
`imageUrl: https://example.com/supplied.png` does not keep it — the returned
deal's `imageUrl` is the synthesized placeholder reference. -/
theorem generateDeals_supplied_imageUrl_replaced :
    (generateDeals (some ("key".toList)) ⟨[], [], []⟩ false
        (.ok ("[\x7b\"title\":\"A\",\"imageUrl\":\"https://example.com/supplied.png\"\x7d]".toList))
        7).result
      = .ok [JVal.obj
          [("title".toList, .str ("A".toList)),
           ("imageUrl".toList, .str ("https://picsum.photos/seed/A/300/200".toList)),
           ("id".toList, .str ("7-0".toList))]] ∧
    ("https://picsum.photos/seed/A/300/200".toList : List Char)
      ≠ "https://example.com/supplied.png".toList :=
  ⟨rfl, by decide⟩

/-- C4 as amended: for every decoded object item, `generateDeals`'s
post-processing writes a synthesized placeholder image reference (seeded from
the item's title, or from `deal-<index>` when the title is absent or falsy)
into `imageUrl` unconditionally, overwriting any supplied value. -/
theorem withIdAndImage_overwrites_imageUrl (ms : List (List Char × JVal)) (index now : Nat) :
    getField (withIdAndImage (.obj ms) index now) ("imageUrl".toList)
      = some (.str (picsumUrl (.obj ms) index)) := by
  unfold withIdAndImage
  exact getField_setField ..

/-! ## Claim C1 -/

/-- C1 counterexample: with the credential absent, `verifyDeal` does not
return a score-0 `DealVerification` — it re-raises the `API_KEY_MISSING`
failure to its caller. -/
theorem verifyDeal_missing_credentials_raises :
    verifyDeal none (.obj []) (.ok []) = .error API_KEY_MISSING := rfl

/-- C1 as amended: `verifyDeal` absorbs oracle/transport failures and decode
failures into valid score-0 `DealVerification` values, but when credentials
are absent it raises the `API_KEY_MISSING` condition to its caller instead of
returning a score-0 value. -/
theorem verifyDeal_failure_paths_amended (apiKey : Option (List Char)) (deal : JVal)
    (e text : List Char) (hk : credentialOk apiKey = true)
    (he : e ≠ API_KEY_MISSING) (hd : parseJsonFromText text false = none) :
    verifyDeal apiKey deal (.error e) = .ok VERIFY_CONN_ERR ∧
    verifyDeal apiKey deal (.ok text) = .ok VERIFY_FORMAT_ERR ∧
    getField VERIFY_CONN_ERR ("score".toList) = some (.num 0) ∧
    getField VERIFY_FORMAT_ERR ("score".toList) = some (.num 0) ∧
    (∀ k2, credentialOk k2 = false → verifyDeal k2 deal (.error e) = .error API_KEY_MISSING) := by
  refine ⟨?_, ?_, rfl, rfl, ?_⟩
  · simp [verifyDeal, hk, he]
  · simp [verifyDeal, hk, hd]
  · intro k2 h2
    simp [verifyDeal, h2]

theorem verifyDeal_failure_paths_amended_witness :
    (credentialOk (some ("key".toList)) = true ∧
     ("boom".toList : List Char) ≠ API_KEY_MISSING ∧
     parseJsonFromText ("not json".toList) false = none) ∧
    verifyDeal (some ("key".toList)) (.obj []) (.error ("boom".toList)) = .ok VERIFY_CONN_ERR :=
  ⟨⟨rfl, by decide, rfl⟩,
   (verifyDeal_failure_paths_amended (some ("key".toList)) (.obj []) ("boom".toList)
      ("not json".toList) rfl (by decide) rfl).1⟩

/-! ## Claim C10 -/

/-- C10 counterexample: for the oracle text `0` the decoder returns the
non-null value `0`, yet `verifyDeal` does not pass it through verbatim — the
falsiness test replaces it with the format-error value. -/
theorem verifyDeal_nonnull_falsy_decode_replaced :
    parseJsonFromText ("0".toList) false = some (.num 0) ∧
    verifyDeal (some ("key".toList)) (.obj []) (.ok ("0".toList)) = .ok VERIFY_FORMAT_ERR ∧
    VERIFY_FORMAT_ERR ≠ .num 0 :=
  ⟨rfl, rfl, fun h => JVal.noConfusion h⟩

/-- C10 as amended: whenever the decoder returns a truthy value (in
particular any object, however shaped — no summary, no score, non-numeric
score), `verifyDeal` returns that decoded value verbatim with no shape
validation; only falsy decode results (`null`, `0`, `false`, `""`) are
treated as decode failure. -/
theorem verifyDeal_truthy_passthrough (apiKey : Option (List Char)) (deal : JVal)
    (text : List Char) (v : JVal) (hk : credentialOk apiKey = true)
    (hp : parseJsonFromText text false = some v) (ht : jsFalsy v = false) :
    verifyDeal apiKey deal (.ok text) = .ok v := by
  simp [verifyDeal, hk, hp, ht]

theorem verifyDeal_truthy_passthrough_witness :
    (credentialOk (some ("key".toList)) = true ∧
     parseJsonFromText ("\x7b\"x\":1\x7d".toList) false = some (.obj [("x".toList, .num 1)]) ∧
     jsFalsy (.obj [("x".toList, .num 1)]) = false) ∧
    verifyDeal (some ("key".toList)) (.obj []) (.ok ("\x7b\"x\":1\x7d".toList))
      = .ok (.obj [("x".toList, .num 1)]) :=
  ⟨⟨rfl, rfl, rfl⟩,
   verifyDeal_truthy_passthrough (some ("key".toList)) (.obj []) ("\x7b\"x\":1\x7d".toList)
     (.obj [("x".toList, .num 1)]) rfl rfl rfl⟩

/-! ## Claim C9 -/

/-- C9: for every `UserPreferences` input and every grounding-flag value, the
request configuration never carries both the structured-JSON response hint
and the web-search tool: with grounding the hint is deleted and the search
tool attached, without grounding no tool is attached and the hint stands. -/
theorem genRequest_hint_tool_exclusive (prefs : UserPreferences) (b : Bool) :
    (genRequest prefs b).config.responseMimeType
        = (if b then none else some ("application/json".toList)) ∧
    (genRequest prefs b).config.tools = (if b then [Tool.googleSearch] else []) ∧
    ((genRequest prefs b).config.responseMimeType = none ∨
     (genRequest prefs b).config.tools = []) := by
  cases b <;> simp [genRequest, genConfig]

/-! ## Claim C8 -/

/-- C8: when generation fails with the missing-credentials condition, the
deal list `fetchDeals` presents is a non-empty placeholder list of exactly
`INITIAL_DEALS_COUNT` deals, each of whose categories is an element of
`DEAL_CATEGORIES`. -/
theorem fetchDeals_placeholder_list_spec (apiKey : Option (List Char))
    (prefs : UserPreferences) (b : Bool) (oracle : Except (List Char) (List Char))
    (now : Nat) (origAmount discAmount : Nat → List Char)
    (h : credentialOk apiKey = false) :
    (fetchDeals apiKey prefs b oracle now origAmount discAmount).deals.length
        = INITIAL_DEALS_COUNT ∧
    0 < INITIAL_DEALS_COUNT ∧
    ∀ d ∈ (fetchDeals apiKey prefs b oracle now origAmount discAmount).deals,
      ∃ c, c ∈ DEAL_CATEGORIES ∧ getField d ("category".toList) = some (.str c) := by
  have hgen : (generateDeals apiKey prefs b oracle now).result = .error API_KEY_MISSING := by
    simp [generateDeals, h]
  have hfd : (fetchDeals apiKey prefs b oracle now origAmount discAmount).deals
      = (List.range INITIAL_DEALS_COUNT).map
          (fun i => mockDeal i (origAmount i) (discAmount i)) := by
    unfold fetchDeals
    rw [hgen]
    simp
  rw [hfd]
  refine ⟨by simp, by decide, ?_⟩
  intro d hd
  simp only [List.mem_map, List.mem_range] at hd
  obtain ⟨i, hi, rfl⟩ := hd
  have hic : INITIAL_DEALS_COUNT = 6 := rfl
  rw [hic] at hi
  interval_cases i <;>
    exact ⟨_, by decide, rfl⟩

theorem fetchDeals_placeholder_list_spec_witness :
    credentialOk none = false ∧
    (fetchDeals none ⟨[], [], []⟩ false (.ok []) 0 (fun _ => []) (fun _ => [])).deals.length
      = INITIAL_DEALS_COUNT :=
  ⟨rfl, (fetchDeals_placeholder_list_spec none ⟨[], [], []⟩ false (.ok []) 0
      (fun _ => []) (fun _ => []) rfl).1⟩

/-! ## Claim C2 -/

/-- C2 counterexample: for the truncated text `[{"title":"A"},{"title":"B"`
with arrays expected, the decoder does not return a one-element sequence
holding the `A` object. -/
theorem decode_truncated_pair_not_singleton_array :
    parseJsonFromText ("[\x7b\"title\":\"A\"\x7d,\x7b\"title\":\"B\"".toList) true
      ≠ some (.arr [.obj [("title".toList, .str ("A".toList))]]) := by
  have h1 : parseJsonFromText ("[\x7b\"title\":\"A\"\x7d,\x7b\"title\":\"B\"".toList) true
      = some (.obj [("title".toList, .str ("A".toList))]) := rfl
  rw [h1]
  intro h
  exact JVal.noConfusion (Option.some.inj h)

/-- C2 as amended: on the truncated text `[{"title":"A"},{"title":"B"` with
arrays expected, iterative salvage is never entered (the text lacks a closing
bracket), and the loose-match fallback returns the bare `A` object itself —
not wrapped in a sequence. -/
theorem decode_truncated_pair_returns_bare_object :
    parseJsonFromText ("[\x7b\"title\":\"A\"\x7d,\x7b\"title\":\"B\"".toList) true
      = some (.obj [("title".toList, .str ("A".toList))]) := rfl

/-! ## The codec round trip and the salvage scan -/


theorem charNe {c d : Char} (h : c.toNat ≠ d.toNat) : c ≠ d :=
  fun hc => h (congrArg Char.toNat hc)

theorem digitChar_spec {m : Nat} (h : m < 10) :
    (digitChar m).toNat = 48 + m ∧ isDig (digitChar m) = true := by
  interval_cases m <;> exact ⟨by decide, by decide⟩

theorem natCharsGo_eq (n : Nat) : ∀ (fuel : Nat) (acc : List Char), n < fuel →
    natCharsGo fuel n acc = natChars n ++ acc := by
  induction n using Nat.strong_induction_on with
  | _ n ih =>
      intro fuel acc hf
      match fuel, hf with
      | f + 1, hf =>
          by_cases h10 : n < 10
          · simp [natCharsGo, h10, natChars]
          · have hdiv : n / 10 < n := Nat.div_lt_self (by omega) (by omega)
            rw [natCharsGo, if_neg h10]
            rw [ih (n / 10) hdiv f _ (by omega)]
            have hn : natChars n = natChars (n / 10) ++ [digitChar (n % 10)] := by
              show natCharsGo (n + 1) n [] = _
              rw [natCharsGo, if_neg h10, ih (n / 10) hdiv n _ (by omega)]
            rw [hn]
            simp

theorem natChars_unfold (n : Nat) :
    natChars n = if n < 10 then [digitChar n]
                 else natChars (n / 10) ++ [digitChar (n % 10)] := by
  by_cases h10 : n < 10
  · simp [natChars, natCharsGo, h10]
  · have hdiv : n / 10 < n := Nat.div_lt_self (by omega) (by omega)
    rw [if_neg h10]
    show natCharsGo (n + 1) n [] = _
    rw [natCharsGo, if_neg h10, natCharsGo_eq (n / 10) n _ (by omega)]

theorem natChars_ne_nil (n : Nat) : natChars n ≠ [] := by
  rw [natChars_unfold]
  by_cases h10 : n < 10 <;> simp [h10]

theorem natChars_digits (n : Nat) : ∀ c ∈ natChars n, isDig c = true := by
  induction n using Nat.strong_induction_on with
  | _ n ih =>
      rw [natChars_unfold]
      by_cases h10 : n < 10
      · simp only [h10, if_true, List.mem_singleton]
        rintro c rfl
        exact (digitChar_spec h10).2
      · simp only [h10, if_false, List.mem_append, List.mem_singleton]
        rintro c (hc | rfl)
        · exact ih (n / 10) (Nat.div_lt_self (by omega) (by omega)) c hc
        · exact (digitChar_spec (Nat.mod_lt _ (by omega))).2

theorem digitsVal_snoc (u : List Char) (c : Char) :
    digitsVal (u ++ [c]) = 10 * digitsVal u + (c.toNat - 48) := by
  simp [digitsVal, List.foldl_append]

theorem digitsVal_natChars (n : Nat) : digitsVal (natChars n) = n := by
  induction n using Nat.strong_induction_on with
  | _ n ih =>
      rw [natChars_unfold]
      by_cases h10 : n < 10
      · simp only [h10, if_true]
        show digitsVal ([] ++ [digitChar n]) = n
        rw [digitsVal_snoc, (digitChar_spec h10).1]
        simp [digitsVal]
      · simp only [h10, if_false]
        rw [digitsVal_snoc, ih (n / 10) (Nat.div_lt_self (by omega) (by omega)),
            (digitChar_spec (Nat.mod_lt _ (by omega))).1]
        omega

/-- A remainder that cannot extend a digit run. -/
def digBreak : List Char → Bool
  | [] => true
  | c :: _ => !isDig c

theorem grabDigits_notdig {c : Char} (h : isDig c = false) (t : List Char) :
    grabDigits (c :: t) = ([], c :: t) := by
  simp [grabDigits, h]

theorem grabDigits_run :
    ∀ (ds : List Char), (∀ c ∈ ds, isDig c = true) →
      ∀ (rest : List Char), grabDigits rest = ([], rest) →
      grabDigits (ds ++ rest) = (ds, rest)
  | [], _, rest, hrest => by simpa using hrest
  | c :: ds, h, rest, hrest => by
      have hc : isDig c = true := h c (by simp)
      have ht := grabDigits_run ds (fun d hd => h d (by simp [hd])) rest hrest
      simp [grabDigits, hc, ht]

theorem grabDigits_break {rest : List Char} (h : digBreak rest = true) :
    grabDigits rest = ([], rest) := by
  match rest with
  | [] => rfl
  | c :: t =>
      simp only [digBreak, Bool.not_eq_true'] at h
      exact grabDigits_notdig h t

theorem isDig_facts {c : Char} (h : isDig c = true) :
    48 ≤ c.toNat ∧ c.toNat ≤ 57 := by
  simp only [isDig, Bool.and_eq_true, decide_eq_true_eq] at h
  obtain ⟨h1, h2⟩ := h
  constructor
  · exact h1
  · exact h2

theorem natChars_cons (n : Nat) :
    ∃ c t, natChars n = c :: t ∧ isDig c = true := by
  match h : natChars n with
  | [] => exact absurd h (natChars_ne_nil n)
  | c :: t =>
      exact ⟨c, t, rfl, natChars_digits n c (h ▸ List.mem_cons_self ..)⟩

theorem pNum_render (n : Int) (rest : List Char) (hr : digBreak rest = true) :
    pNum (intChars n ++ rest) = some (n, rest) := by
  have hgrab : grabDigits (natChars n.natAbs ++ rest) = (natChars n.natAbs, rest) :=
    grabDigits_run _ (natChars_digits _) rest (grabDigits_break hr)
  by_cases hneg : n < 0
  · have harg : intChars n ++ rest = '-' :: (natChars n.natAbs ++ rest) := by
      simp [intChars, hneg]
    rw [harg]
    simp only [pNum, hgrab]
    rw [if_neg (by simpa using natChars_ne_nil n.natAbs)]
    rw [digitsVal_natChars]
    simp only [Option.some.injEq, Prod.mk.injEq]
    exact ⟨by omega, trivial⟩
  · have habs : n.natAbs = n.toNat := by omega
    obtain ⟨c, t, hct, hc⟩ := natChars_cons n.toNat
    have hcm : c ≠ '-' := by
      have := isDig_facts hc
      exact charNe (by simp; omega)
    have harg : intChars n ++ rest = c :: (t ++ rest) := by
      simp [intChars, hneg, hct]
    have hgrab2 : grabDigits (c :: (t ++ rest)) = (c :: t, rest) := by
      have := hgrab
      rw [habs, hct] at this
      simpa using this
    rw [harg]
    simp only [pNum, hcm, hgrab2]
    split
    · rename_i rest1 heq
      exact absurd (List.cons.inj heq).1 hcm
    · have hdv : digitsVal (c :: t) = n.toNat := by
        rw [← hct, digitsVal_natChars]
      rw [if_neg (by simp), hdv]
      simp only [Option.some.injEq, Prod.mk.injEq]
      exact ⟨by omega, trivial⟩

theorem cleanStr_cons {c : Char} {cs : List Char} (h : cleanStr (c :: cs) = true) :
    cleanChar c = true ∧ cleanStr cs = true := by
  simpa [cleanStr] using h

theorem readStr_esc :
    ∀ (s : List Char), cleanStr s = true → ∀ (rest : List Char),
      readStr (escStr s ++ '"' :: rest) = some (s, rest)
  | [], _, rest => by
      show readStr ('"' :: rest) = some ([], rest)
      simp [readStr.eq_def]
  | c :: cs, hs, rest => by
      obtain ⟨hc, hcs⟩ := cleanStr_cons hs
      have ih := readStr_esc cs hcs rest
      by_cases hq : c = '"'
      · subst hq
        have harg : escStr ('"' :: cs) ++ '"' :: rest
            = '\\' :: ('"' :: (escStr cs ++ '"' :: rest)) := by
          simp [escStr, escChar, List.flatMap_cons]
        rw [harg, readStr.eq_def]
        simp [escDecode, ih]
      · by_cases hb : c = '\\'
        · subst hb
          have harg : escStr ('\\' :: cs) ++ '"' :: rest
              = '\\' :: ('\\' :: (escStr cs ++ '"' :: rest)) := by
            simp [escStr, escChar, List.flatMap_cons]
          rw [harg, readStr.eq_def]
          simp [escDecode, ih]
        · have harg : escStr (c :: cs) ++ '"' :: rest
              = c :: (escStr cs ++ '"' :: rest) := by
            simp [escStr, escChar, List.flatMap_cons, hq, hb]
          rw [harg, readStr.eq_def]
          simp [hq, hb, hc, ih]

theorem digit_ne {c : Char} (h48 : 48 ≤ c.toNat) (h57 : c.toNat ≤ 57) {d : Char}
    (hd : d.toNat < 48 ∨ 57 < d.toNat) : c ≠ d :=
  charNe (by omega)

/-- Every rendered value opens with a character that is not whitespace and
closes no bracket — the head the parser dispatches on. -/
theorem renderHead : ∀ (v : JVal),
    ∃ c t, render v = c :: t ∧ jsWS c = false ∧ c ≠ ']' ∧ c ≠ '}'
  | .null => ⟨'n', _, rfl, by decide⟩
  | .bool true => ⟨'t', _, rfl, by decide⟩
  | .bool false => ⟨'f', _, rfl, by decide⟩
  | .str s => ⟨'"', _, rfl, by decide⟩
  | .arr es => ⟨'[', _, rfl, by decide⟩
  | .obj ms => ⟨'{', _, rfl, by decide⟩
  | .num n => by
      by_cases hneg : n < 0
      · refine ⟨'-', natChars n.natAbs, ?_, by decide⟩
        simp [render, intChars, hneg]
      · obtain ⟨c, t, hct, hc⟩ := natChars_cons n.toNat
        obtain ⟨h48, h57⟩ := isDig_facts hc
        refine ⟨c, t, ?_, ?_, digit_ne h48 h57 (by decide), digit_ne h48 h57 (by decide)⟩
        · simp [render, intChars, hneg, hct]
        · have e32 : c ≠ ' ' := digit_ne h48 h57 (by decide)
          have e9 : c ≠ '\t' := digit_ne h48 h57 (by decide)
          have e10 : c ≠ '\n' := digit_ne h48 h57 (by decide)
          have e13 : c ≠ '\r' := digit_ne h48 h57 (by decide)
          simp [jsWS, e32, e9, e10, e13]

theorem GoodElems_cons {x : JVal} {xs : List JVal} (h : GoodElems (x :: xs) = true) :
    Good x = true ∧ GoodElems xs = true := by
  simpa [GoodElems] using h

theorem GoodMembs_cons {k : List Char} {v : JVal} {ms : List (List Char × JVal)}
    (h : GoodMembs ((k, v) :: ms) = true) :
    cleanStr k = true ∧ Good v = true ∧ GoodMembs ms = true := by
  have := h
  simp only [GoodMembs, Bool.and_eq_true] at this
  exact ⟨this.1.1, this.1.2, this.2⟩

theorem dropWS_render (v : JVal) (x : List Char) :
    dropWS (render v ++ x) = render v ++ x := by
  obtain ⟨c, t, hct, hws, -, -⟩ := renderHead v
  rw [hct, List.cons_append]
  exact dropWS_cons_false hws _

theorem pVal_num_step (f : Nat) (c : Char) (t : List Char) (hws : jsWS c = false)
    (hn : c ≠ 'n') (ht : c ≠ 't') (hf : c ≠ 'f') (hq : c ≠ '"')
    (hbk : c ≠ '[') (hbc : c ≠ '{') (hg : (c = '-' || isDig c) = true) :
    pVal (f + 1) (c :: t) = (pNum (c :: t)).map (fun p => (.num p.1, p.2)) := by
  have h := dropWS_cons_false hws t
  simp only [pVal, h]
  simp [hn, ht, hf, hq, hbk, hbc, hg]

theorem pVal_str_step (f : Nat) (r : List Char) :
    pVal (f + 1) ('"' :: r) = (readStr r).map (fun p => (.str p.1, p.2)) := by
  have h := dropWS_cons_false (show jsWS '"' = false from rfl) r
  simp only [pVal, h]

theorem pVal_arr_step (f : Nat) (r : List Char) (c : Char) (r2 : List Char)
    (hdr : dropWS r = c :: r2) (hc : c ≠ ']') :
    pVal (f + 1) ('[' :: r) = (pElems f (c :: r2)).map (fun p => (.arr p.1, p.2)) := by
  have h := dropWS_cons_false (show jsWS '[' = false from rfl) r
  simp only [pVal, h, hdr]
  simp [hc]

theorem pVal_arr_nil (f : Nat) (r r2 : List Char) (hdr : dropWS r = ']' :: r2) :
    pVal (f + 1) ('[' :: r) = some (.arr [], r2) := by
  have h := dropWS_cons_false (show jsWS '[' = false from rfl) r
  simp only [pVal, h, hdr]
  simp

theorem pVal_obj_step (f : Nat) (r : List Char) (c : Char) (r2 : List Char)
    (hdr : dropWS r = c :: r2) (hc : c ≠ '}') :
    pVal (f + 1) ('{' :: r) = (pMembs f (c :: r2)).map (fun p => (.obj p.1, p.2)) := by
  have h := dropWS_cons_false (show jsWS '{' = false from rfl) r
  simp only [pVal, h, hdr]
  simp [hc]

theorem pVal_obj_nil (f : Nat) (r r2 : List Char) (hdr : dropWS r = '}' :: r2) :
    pVal (f + 1) ('{' :: r) = some (.obj [], r2) := by
  have h := dropWS_cons_false (show jsWS '{' = false from rfl) r
  simp only [pVal, h, hdr]
  simp

mutual
theorem rtVal : ∀ (v : JVal) (f : Nat) (rest : List Char),
    Good v = true → (render v).length < f → digBreak rest = true →
    pVal f (render v ++ rest) = some (v, rest)
  | .null, f, rest, _, hf, _ => by
      match f, hf with
      | f + 1, _ =>
          show pVal (f + 1) ('n' :: 'u' :: 'l' :: 'l' :: rest) = some (.null, rest)
          have h := dropWS_cons_false (show jsWS 'n' = false from rfl)
            ('u' :: 'l' :: 'l' :: rest)
          simp only [pVal, h]
  | .bool true, f, rest, _, hf, _ => by
      match f, hf with
      | f + 1, _ =>
          show pVal (f + 1) ('t' :: 'r' :: 'u' :: 'e' :: rest) = some (.bool true, rest)
          have h := dropWS_cons_false (show jsWS 't' = false from rfl)
            ('r' :: 'u' :: 'e' :: rest)
          simp only [pVal, h]
  | .bool false, f, rest, _, hf, _ => by
      match f, hf with
      | f + 1, _ =>
          show pVal (f + 1) ('f' :: 'a' :: 'l' :: 's' :: 'e' :: rest)
            = some (.bool false, rest)
          have h := dropWS_cons_false (show jsWS 'f' = false from rfl)
            ('a' :: 'l' :: 's' :: 'e' :: rest)
          simp only [pVal, h]
  | .num n, f, rest, _, hf, hr => by
      match f, hf with
      | f + 1, _ =>
          show pVal (f + 1) (intChars n ++ rest) = some (.num n, rest)
          by_cases hneg : n < 0
          · have harg : intChars n ++ rest = '-' :: (natChars n.natAbs ++ rest) := by
              simp [intChars, hneg]
            rw [harg,
              pVal_num_step f '-' _ (by decide) (by decide) (by decide) (by decide)
                (by decide) (by decide) (by decide) (by decide),
              ← harg, pNum_render n rest hr]
            rfl
          · obtain ⟨c, t, hct, hc⟩ := natChars_cons n.toNat
            obtain ⟨h48, h57⟩ := isDig_facts hc
            have hwsc : jsWS c = false := by
              have e32 : c ≠ ' ' := digit_ne h48 h57 (by decide)
              have e9 : c ≠ '\t' := digit_ne h48 h57 (by decide)
              have e10 : c ≠ '\n' := digit_ne h48 h57 (by decide)
              have e13 : c ≠ '\r' := digit_ne h48 h57 (by decide)
              simp [jsWS, e32, e9, e10, e13]
            have harg : intChars n ++ rest = c :: (t ++ rest) := by
              simp [intChars, hneg, hct]
            rw [harg,
              pVal_num_step f c _ hwsc (digit_ne h48 h57 (by decide))
                (digit_ne h48 h57 (by decide)) (digit_ne h48 h57 (by decide))
                (digit_ne h48 h57 (by decide)) (digit_ne h48 h57 (by decide))
                (digit_ne h48 h57 (by decide)) (by simp [hc]),
              ← harg, pNum_render n rest hr]
            rfl
  | .str s, f, rest, hg, hf, _ => by
      match f, hf with
      | f + 1, _ =>
          have hclean : cleanStr s = true := by simpa [Good] using hg
          have harg : render (.str s) ++ rest = '"' :: (escStr s ++ '"' :: rest) := by
            simp [render, renderStr]
          rw [harg, pVal_str_step, readStr_esc s hclean rest]
          rfl
  | .arr [], f, rest, _, hf, _ => by
      match f, hf with
      | f + 1, _ =>
          show pVal (f + 1) ('[' :: (']' :: rest)) = some (.arr [], rest)
          exact pVal_arr_nil f _ rest (dropWS_cons_false (by decide) rest)
  | .arr (x :: xs), f, rest, hg, hf, _ => by
      match f, hf with
      | f + 1, hf =>
          have hge : GoodElems (x :: xs) = true := by simpa [Good] using hg
          have hfe : (renderElems (x :: xs)).length + 1 < f := by
            have hrw : render (.arr (x :: xs)) = '[' :: (renderElems (x :: xs) ++ [']']) := rfl
            rw [hrw] at hf
            simp only [List.length_cons, List.length_append, List.length_singleton] at hf
            omega
          have harr : render (.arr (x :: xs)) ++ rest
              = '[' :: (renderElems (x :: xs) ++ ']' :: rest) := by
            show ('[' :: (renderElems (x :: xs) ++ [']'])) ++ rest = _
            simp
          have hhead : ∃ c t2, renderElems (x :: xs) ++ ']' :: rest = c :: t2 ∧
              jsWS c = false ∧ c ≠ ']' := by
            obtain ⟨c, t, hct, hws, hcbr, -⟩ := renderHead x
            cases xs with
            | nil =>
                refine ⟨c, t ++ ']' :: rest, ?_, hws, hcbr⟩
                show render x ++ ']' :: rest = _
                rw [hct]
                simp
            | cons y ys =>
                refine ⟨c, t ++ (',' :: renderElems (y :: ys) ++ ']' :: rest), ?_, hws, hcbr⟩
                show (render x ++ ',' :: renderElems (y :: ys)) ++ ']' :: rest = _
                rw [hct]
                simp
          obtain ⟨c, t2, hct2, hws2, hne2⟩ := hhead
          have hdr : dropWS (renderElems (x :: xs) ++ ']' :: rest) = c :: t2 := by
            rw [hct2]
            exact dropWS_cons_false hws2 _
          rw [harr, pVal_arr_step f _ c t2 hdr hne2, ← hct2, rtElems x xs f rest hge hfe]
          rfl
  | .obj [], f, rest, _, hf, _ => by
      match f, hf with
      | f + 1, _ =>
          show pVal (f + 1) ('{' :: ('}' :: rest)) = some (.obj [], rest)
          exact pVal_obj_nil f _ rest (dropWS_cons_false (by decide) rest)
  | .obj ((k, v) :: ms), f, rest, hg, hf, _ => by
      match f, hf with
      | f + 1, hf =>
          have hgm : GoodMembs ((k, v) :: ms) = true := by simpa [Good] using hg
          have hfm : (renderMembs ((k, v) :: ms)).length + 1 < f := by
            have hrw : render (.obj ((k, v) :: ms))
                = '{' :: (renderMembs ((k, v) :: ms) ++ ['}']) := rfl
            rw [hrw] at hf
            simp only [List.length_cons, List.length_append, List.length_singleton] at hf
            omega
          have harr : render (.obj ((k, v) :: ms)) ++ rest
              = '{' :: (renderMembs ((k, v) :: ms) ++ '}' :: rest) := by
            show ('{' :: (renderMembs ((k, v) :: ms) ++ ['}'])) ++ rest = _
            simp
          have hhead : ∃ t2, renderMembs ((k, v) :: ms) ++ '}' :: rest = '"' :: t2 := by
            cases ms with
            | nil =>
                refine ⟨(escStr k ++ ['"']) ++ ':' :: render v ++ '}' :: rest, ?_⟩
                show (renderStr k ++ ':' :: render v) ++ '}' :: rest = _
                simp [renderStr]
            | cons m ms' =>
                refine ⟨(escStr k ++ ['"']) ++ ':' :: render v
                    ++ ',' :: renderMembs (m :: ms') ++ '}' :: rest, ?_⟩
                show (renderStr k ++ ':' :: render v ++ ',' :: renderMembs (m :: ms'))
                    ++ '}' :: rest = _
                simp [renderStr]
          obtain ⟨t2, hct2⟩ := hhead
          have hdr : dropWS (renderMembs ((k, v) :: ms) ++ '}' :: rest) = '"' :: t2 := by
            rw [hct2]
            exact dropWS_cons_false (by decide) _
          rw [harr, pVal_obj_step f _ '"' t2 hdr (by decide), ← hct2,
              rtMembs k v ms f rest hgm hfm]
          rfl
termination_by v _ _ _ _ _ => sizeOf v

theorem rtElems : ∀ (x : JVal) (xs : List JVal) (f : Nat) (rest : List Char),
    GoodElems (x :: xs) = true → (renderElems (x :: xs)).length + 1 < f →
    pElems f (renderElems (x :: xs) ++ ']' :: rest) = some (x :: xs, rest)
  | x, [], f, rest, hg, hf => by
      match f, hf with
      | f + 1, hf =>
          have hfx : (render x).length < f := by
            have : renderElems [x] = render x := rfl
            rw [this] at hf
            omega
          have hx := rtVal x f (']' :: rest) (GoodElems_cons hg).1 hfx rfl
          show pElems (f + 1) (render x ++ ']' :: rest) = some ([x], rest)
          have h2 := dropWS_cons_false (show jsWS ']' = false from rfl) rest
          simp only [pElems, hx, h2]
          simp
  | x, y :: ys, f, rest, hg, hf => by
      match f, hf with
      | f + 1, hf =>
          obtain ⟨hgx, hgrest⟩ := GoodElems_cons hg
          have hlen : (renderElems (x :: y :: ys)).length
              = (render x).length + 1 + (renderElems (y :: ys)).length := by
            show (render x ++ ',' :: renderElems (y :: ys)).length = _
            simp
            omega
          have hfx : (render x).length < f := by omega
          have hfr : (renderElems (y :: ys)).length + 1 < f := by omega
          have hx := rtVal x f (',' :: (renderElems (y :: ys) ++ ']' :: rest)) hgx hfx rfl
          have hrec := rtElems y ys f rest hgrest hfr
          have harg : renderElems (x :: y :: ys) ++ ']' :: rest
              = render x ++ (',' :: (renderElems (y :: ys) ++ ']' :: rest)) := by
            show (render x ++ ',' :: renderElems (y :: ys)) ++ ']' :: rest = _
            simp
          rw [harg]
          have h2 := dropWS_cons_false (show jsWS ',' = false from rfl)
            (renderElems (y :: ys) ++ ']' :: rest)
          simp only [pElems, hx, h2, hrec]
          simp
termination_by x xs _ _ _ _ => sizeOf x + sizeOf xs

theorem rtMembs : ∀ (k : List Char) (v : JVal) (ms : List (List Char × JVal))
    (f : Nat) (rest : List Char),
    GoodMembs ((k, v) :: ms) = true → (renderMembs ((k, v) :: ms)).length + 1 < f →
    pMembs f (renderMembs ((k, v) :: ms) ++ '}' :: rest) = some ((k, v) :: ms, rest)
  | k, v, [], f, rest, hg, hf => by
      match f, hf with
      | f + 1, hf =>
          obtain ⟨hck, hgv, -⟩ := GoodMembs_cons hg
          have hfv : (render v).length < f := by
            have hrw : renderMembs [(k, v)] = renderStr k ++ ':' :: render v := rfl
            rw [hrw] at hf
            simp only [List.length_append, List.length_cons] at hf
            omega
          have harg : renderMembs [(k, v)] ++ '}' :: rest
              = '"' :: (escStr k ++ '"' :: (':' :: (render v ++ '}' :: rest))) := by
            show (renderStr k ++ ':' :: render v) ++ '}' :: rest = _
            simp [renderStr]
          have hv := rtVal v f ('}' :: rest) hgv hfv rfl
          have hread := readStr_esc k hck (':' :: (render v ++ '}' :: rest))
          have h0 := dropWS_cons_false (show jsWS '"' = false from rfl)
            (escStr k ++ '"' :: (':' :: (render v ++ '}' :: rest)))
          have h1 := dropWS_cons_false (show jsWS ':' = false from rfl)
            (render v ++ '}' :: rest)
          have h2 := dropWS_cons_false (show jsWS '}' = false from rfl) rest
          rw [harg]
          simp only [pMembs, h0, hread, h1, hv, h2]
          simp
  | k, v, (k2, v2) :: ms', f, rest, hg, hf => by
      match f, hf with
      | f + 1, hf =>
          obtain ⟨hck, hgv, hgms⟩ := GoodMembs_cons hg
          have hlen : (renderMembs ((k, v) :: (k2, v2) :: ms')).length
              = (renderStr k).length + 1 + (render v).length + 1
                + (renderMembs ((k2, v2) :: ms')).length := by
            show (renderStr k ++ ':' :: render v ++ ',' :: renderMembs ((k2, v2) :: ms')).length = _
            simp
            omega
          have hfv : (render v).length < f := by omega
          have hfm : (renderMembs ((k2, v2) :: ms')).length + 1 < f := by omega
          have harg : renderMembs ((k, v) :: (k2, v2) :: ms') ++ '}' :: rest
              = '"' :: (escStr k ++ '"' :: (':' :: (render v
                  ++ ',' :: (renderMembs ((k2, v2) :: ms') ++ '}' :: rest)))) := by
            show (renderStr k ++ ':' :: render v ++ ',' :: renderMembs ((k2, v2) :: ms'))
                ++ '}' :: rest = _
            simp [renderStr]
          have hv := rtVal v f (',' :: (renderMembs ((k2, v2) :: ms') ++ '}' :: rest)) hgv hfv rfl
          have hrec := rtMembs k2 v2 ms' f rest hgms hfm
          have hread := readStr_esc k hck
            (':' :: (render v ++ ',' :: (renderMembs ((k2, v2) :: ms') ++ '}' :: rest)))
          have h0 := dropWS_cons_false (show jsWS '"' = false from rfl)
            (escStr k ++ '"' :: (':' :: (render v
              ++ ',' :: (renderMembs ((k2, v2) :: ms') ++ '}' :: rest))))
          have h1 := dropWS_cons_false (show jsWS ':' = false from rfl)
            (render v ++ ',' :: (renderMembs ((k2, v2) :: ms') ++ '}' :: rest))
          have h3 := dropWS_cons_false (show jsWS ',' = false from rfl)
            (renderMembs ((k2, v2) :: ms') ++ '}' :: rest)
          rw [harg]
          simp only [pMembs, h0, hread, h1, hv, h3, hrec]
          simp
termination_by k v ms _ _ _ _ => sizeOf v + sizeOf ms
end

/-- Round trip at the `jsonParse` level: the canonical text of a control-free
value parses back to exactly that value. -/
theorem jsonParse_render (v : JVal) (hg : Good v = true) :
    jsonParse (render v) = some v := by
  have h := rtVal v ((render v).length + 1) [] hg (by omega) rfl
  rw [List.append_nil] at h
  unfold jsonParse
  rw [h]
  rfl

theorem salvGo_append (a : List Char) :
    ∀ (b prev : List Char) (st : SalvState),
      salvGo prev (a ++ b) st = salvGo (a.reverse ++ prev) b (salvGo prev a st) := by
  induction a with
  | nil => intro b prev st; rfl
  | cons c a ih =>
      intro b prev st
      simp only [List.cons_append, List.reverse_cons, List.append_assoc, List.singleton_append]
      show salvGo (c :: prev) (a ++ b) (salvStep prev c st)
          = salvGo (a.reverse ++ (c :: prev)) b (salvGo (c :: prev) a (salvStep prev c st))
      exact ih b (c :: prev) (salvStep prev c st)

theorem bsRun_cons_ne {c : Char} (h : c ≠ '\\') (prev : List Char) :
    bsRun (c :: prev) = 0 := by
  simp [bsRun, List.takeWhile_cons, h]

theorem bsRun_cons_bs (prev : List Char) : bsRun ('\\' :: prev) = bsRun prev + 1 := by
  simp [bsRun, List.takeWhile_cons]

theorem salvStep_other {c : Char} (hq : c ≠ '"') (hob : c ≠ '{') (hcb : c ≠ '}')
    (hcm : c ≠ ',') (prev : List Char) (E : List JVal) (b : List Char) (d : Int) :
    salvStep prev c ⟨E, b, d, false⟩ = ⟨E, b ++ [c], d, false⟩ := by
  simp [salvStep, hq, hob, hcb, hcm]

theorem salvStep_inStr {c : Char} (hq : c ≠ '"')
    (prev : List Char) (E : List JVal) (b : List Char) (d : Int) :
    salvStep prev c ⟨E, b, d, true⟩ = ⟨E, b ++ [c], d, true⟩ := by
  simp [salvStep, hq]

theorem salvStep_quote_odd {prev : List Char} (hodd : bsRun prev % 2 = 1)
    (E : List JVal) (b : List Char) (d : Int) (ins : Bool) :
    salvStep prev '"' ⟨E, b, d, ins⟩ = ⟨E, b ++ ['"'], d, ins⟩ := by
  cases ins <;> simp [salvStep, hodd]

theorem salvStep_quote_open {prev : List Char} (heven : bsRun prev % 2 = 0)
    (E : List JVal) (b : List Char) (d : Int) :
    salvStep prev '"' ⟨E, b, d, false⟩ = ⟨E, b ++ ['"'], d, true⟩ := by
  simp [salvStep, heven]

theorem salvStep_quote_close {prev : List Char} (heven : bsRun prev % 2 = 0)
    (E : List JVal) (b : List Char) (d : Int) :
    salvStep prev '"' ⟨E, b, d, true⟩ = ⟨E, b ++ ['"'], d, false⟩ := by
  simp [salvStep, heven]

theorem salvStep_open_deep {d : Int} (hd : d ≠ 0)
    (prev : List Char) (E : List JVal) (b : List Char) :
    salvStep prev '{' ⟨E, b, d, false⟩ = ⟨E, b ++ ['{'], d + 1, false⟩ := by
  simp [salvStep, hd]

theorem salvStep_open_top (prev : List Char) (E : List JVal) (b : List Char) :
    salvStep prev '{' ⟨E, b, 0, false⟩ = ⟨E, ['{'], 1, false⟩ := by
  simp [salvStep]

theorem salvStep_close_deep {d : Int} (hd : d - 1 ≠ 0)
    (prev : List Char) (E : List JVal) (b : List Char) :
    salvStep prev '}' ⟨E, b, d, false⟩ = ⟨E, b ++ ['}'], d - 1, false⟩ := by
  simp [salvStep, hd]

theorem salvStep_comma_deep {d : Int} (hd : d ≠ 0)
    (prev : List Char) (E : List JVal) (b : List Char) :
    salvStep prev ',' ⟨E, b, d, false⟩ = ⟨E, b ++ [','], d, false⟩ := by
  simp [salvStep, hd]

theorem salvStep_comma_top (prev : List Char) (E : List JVal) (b : List Char) :
    salvStep prev ',' ⟨E, b, 0, false⟩ = ⟨E, [], 0, false⟩ := by
  simp [salvStep]

/-- Characters that touch none of the scan's tracked structure: scanning them
outside a string only appends to the buffer. -/
theorem salvGo_plain :
    ∀ (s prev : List Char) (E : List JVal) (b : List Char) (d : Int),
      (∀ c ∈ s, c ≠ '"' ∧ c ≠ '{' ∧ c ≠ '}' ∧ c ≠ ',') →
      salvGo prev s ⟨E, b, d, false⟩ = ⟨E, b ++ s, d, false⟩
  | [], _, E, b, d, _ => by simp [salvGo]
  | c :: s, prev, E, b, d, h => by
      obtain ⟨h1, h2, h3, h4⟩ := h c (by simp)
      show salvGo (c :: prev) s (salvStep prev c ⟨E, b, d, false⟩) = _
      rw [salvStep_other h1 h2 h3 h4]
      rw [salvGo_plain s (c :: prev) E (b ++ [c]) d (fun x hx => h x (by simp [hx]))]
      simp

/-- Scanning an escaped string body inside a string: everything is literal,
the string flag never drops, and the trailing backslash run stays even. -/
theorem salvGo_escBody :
    ∀ (u prev : List Char) (E : List JVal) (b : List Char) (d : Int),
      bsRun prev % 2 = 0 →
      salvGo prev (escStr u) ⟨E, b, d, true⟩ = ⟨E, b ++ escStr u, d, true⟩
  | [], _, E, b, d, _ => by simp [salvGo, escStr]
  | c :: u, prev, E, b, d, hrun => by
      have hcons : escStr (c :: u) = escChar c ++ escStr u := by
        simp [escStr, List.flatMap_cons]
      rw [hcons, salvGo_append]
      by_cases hq : c = '"'
      · subst hq
        have hec : escChar '"' = ['\\', '"'] := rfl
        rw [hec]
        show salvGo _ (escStr u)
            (salvGo prev ['\\', '"'] ⟨E, b, d, true⟩) = _
        have s1 : salvStep prev '\\' ⟨E, b, d, true⟩ = ⟨E, b ++ ['\\'], d, true⟩ :=
          salvStep_inStr (by decide) prev E b d
        have hodd : bsRun ('\\' :: prev) % 2 = 1 := by
          rw [bsRun_cons_bs]
          omega
        have s2 : salvStep ('\\' :: prev) '"' ⟨E, b ++ ['\\'], d, true⟩
            = ⟨E, (b ++ ['\\']) ++ ['"'], d, true⟩ :=
          salvStep_quote_odd hodd E (b ++ ['\\']) d true
        show salvGo (['\\', '"'].reverse ++ prev) (escStr u)
            (salvGo ('\\' :: prev) ['"'] (salvStep prev '\\' ⟨E, b, d, true⟩)) = _
        rw [s1]
        show salvGo (['\\', '"'].reverse ++ prev) (escStr u)
            (salvGo ('"' :: '\\' :: prev) [] (salvStep ('\\' :: prev) '"' ⟨E, b ++ ['\\'], d, true⟩)) = _
        rw [s2]
        show salvGo ('"' :: '\\' :: prev) (escStr u) ⟨E, (b ++ ['\\']) ++ ['"'], d, true⟩ = _
        rw [salvGo_escBody u _ E _ d (by rw [bsRun_cons_ne (by decide)])]
        simp
      · by_cases hb : c = '\\'
        · subst hb
          have hec : escChar '\\' = ['\\', '\\'] := rfl
          rw [hec]
          have s1 : salvStep prev '\\' ⟨E, b, d, true⟩ = ⟨E, b ++ ['\\'], d, true⟩ :=
            salvStep_inStr (by decide) prev E b d
          have s2 : salvStep ('\\' :: prev) '\\' ⟨E, b ++ ['\\'], d, true⟩
              = ⟨E, (b ++ ['\\']) ++ ['\\'], d, true⟩ :=
            salvStep_inStr (by decide) _ E _ d
          show salvGo (['\\', '\\'].reverse ++ prev) (escStr u)
              (salvGo ('\\' :: prev) ['\\'] (salvStep prev '\\' ⟨E, b, d, true⟩)) = _
          rw [s1]
          show salvGo (['\\', '\\'].reverse ++ prev) (escStr u)
              (salvGo ('\\' :: '\\' :: prev) [] (salvStep ('\\' :: prev) '\\' ⟨E, b ++ ['\\'], d, true⟩)) = _
          rw [s2]
          show salvGo ('\\' :: '\\' :: prev) (escStr u) ⟨E, (b ++ ['\\']) ++ ['\\'], d, true⟩ = _
          have heven : bsRun ('\\' :: '\\' :: prev) % 2 = 0 := by
            rw [bsRun_cons_bs, bsRun_cons_bs]
            omega
          rw [salvGo_escBody u _ E _ d heven]
          simp
        · have hec : escChar c = [c] := by simp [escChar, hq, hb]
          rw [hec]
          have s1 : salvStep prev c ⟨E, b, d, true⟩ = ⟨E, b ++ [c], d, true⟩ :=
            salvStep_inStr hq prev E b d
          show salvGo ([c].reverse ++ prev) (escStr u)
              (salvGo (c :: prev) [] (salvStep prev c ⟨E, b, d, true⟩)) = _
          rw [s1]
          show salvGo (c :: prev) (escStr u) ⟨E, b ++ [c], d, true⟩ = _
          rw [salvGo_escBody u _ E _ d (by rw [bsRun_cons_ne hb])]
          simp

/-- The backslash run after an escaped body is even (each unit contributes an
even number of trailing backslashes). -/
theorem bsRun_escStr :
    ∀ (u prev : List Char), bsRun prev % 2 = 0 →
      bsRun ((escStr u).reverse ++ prev) % 2 = 0
  | [], prev, h => by simpa [escStr] using h
  | c :: u, prev, h => by
      have hcons : escStr (c :: u) = escChar c ++ escStr u := by
        simp [escStr, List.flatMap_cons]
      rw [hcons, List.reverse_append, List.append_assoc]
      apply bsRun_escStr u
      by_cases hq : c = '"'
      · subst hq
        rw [show escChar '"' = ['\\', '"'] from rfl]
        show bsRun ('"' :: '\\' :: prev) % 2 = 0
        rw [bsRun_cons_ne (by decide)]
      · by_cases hb : c = '\\'
        · subst hb
          rw [show escChar '\\' = ['\\', '\\'] from rfl]
          show bsRun ('\\' :: '\\' :: prev) % 2 = 0
          rw [bsRun_cons_bs, bsRun_cons_bs]
          omega
        · rw [show escChar c = [c] by simp [escChar, hq, hb]]
          show bsRun (c :: prev) % 2 = 0
          rw [bsRun_cons_ne hb]

/-- Scanning a whole rendered string token outside a string: the flag opens
and closes, the token lands in the buffer, depth untouched. -/
theorem salvGo_strToken (u prev : List Char) (E : List JVal) (b : List Char) (d : Int)
    (hrun : bsRun prev % 2 = 0) :
    salvGo prev (renderStr u) ⟨E, b, d, false⟩ = ⟨E, b ++ renderStr u, d, false⟩ := by
  have hshape : renderStr u = '"' :: (escStr u ++ ['"']) := by simp [renderStr]
  rw [hshape]
  show salvGo ('"' :: prev) (escStr u ++ ['"'])
      (salvStep prev '"' ⟨E, b, d, false⟩) = _
  rw [salvStep_quote_open hrun, salvGo_append]
  rw [salvGo_escBody u _ E _ d (by rw [bsRun_cons_ne (by decide)])]
  have hrun2 : bsRun ((escStr u).reverse ++ ('"' :: prev)) % 2 = 0 :=
    bsRun_escStr u _ (by rw [bsRun_cons_ne (by decide)])
  show (salvStep ((escStr u).reverse ++ ('"' :: prev)) '"'
      ⟨E, (b ++ ['"']) ++ escStr u, d, true⟩ : SalvState)
      = ⟨E, b ++ ('"' :: (escStr u ++ ['"'])), d, false⟩
  rw [salvStep_quote_close hrun2]
  simp

theorem natChars_snoc (n : Nat) :
    ∃ u m, natChars n = u ++ [digitChar m] ∧ m < 10 := by
  rw [natChars_unfold]
  by_cases h10 : n < 10
  · exact ⟨[], n, by simp [h10], h10⟩
  · exact ⟨natChars (n / 10), n % 10, by simp [h10], Nat.mod_lt _ (by omega)⟩

theorem digitChar_ne_bs {m : Nat} (hm : m < 10) : digitChar m ≠ '\\' := by
  have hd : (digitChar m).toNat = 48 + m := (digitChar_spec hm).1
  exact digit_ne (by omega) (by omega) (by decide)

theorem render_last (v : JVal) :
    ∃ u c, render v = u ++ [c] ∧ c ≠ '\\' := by
  cases v with
  | null => exact ⟨['n', 'u', 'l'], 'l', rfl, by decide⟩
  | bool b => cases b with
      | true => exact ⟨['t', 'r', 'u'], 'e', rfl, by decide⟩
      | false => exact ⟨['f', 'a', 'l', 's'], 'e', rfl, by decide⟩
  | str s =>
      refine ⟨'"' :: escStr s, '"', ?_, by decide⟩
      simp [render, renderStr]
  | arr es =>
      refine ⟨'[' :: renderElems es, ']', ?_, by decide⟩
      simp [render]
  | obj ms =>
      refine ⟨'{' :: renderMembs ms, '}', ?_, by decide⟩
      simp [render]
  | num n =>
      by_cases hneg : n < 0
      · obtain ⟨u, m, hu, hm⟩ := natChars_snoc n.natAbs
        refine ⟨'-' :: u, digitChar m, ?_, digitChar_ne_bs hm⟩
        show intChars n = _
        rw [intChars, if_pos hneg, hu]
        rfl
      · obtain ⟨u, m, hu, hm⟩ := natChars_snoc n.toNat
        refine ⟨u, digitChar m, ?_, digitChar_ne_bs hm⟩
        show intChars n = _
        rw [intChars, if_neg hneg, hu]

theorem bsRun_render (v : JVal) (prev : List Char) :
    bsRun ((render v).reverse ++ prev) = 0 := by
  obtain ⟨u, c, hu, hc⟩ := render_last v
  rw [hu]
  simp only [List.reverse_append, List.reverse_singleton, List.singleton_append,
    List.cons_append]
  exact bsRun_cons_ne hc _

theorem intChars_nospec (n : Int) :
    ∀ c ∈ intChars n, c ≠ '"' ∧ c ≠ '{' ∧ c ≠ '}' ∧ c ≠ ',' := by
  intro c hc
  have hdig : c = '-' ∨ isDig c = true := by
    unfold intChars at hc
    by_cases hneg : n < 0
    · rw [if_pos hneg] at hc
      rcases List.mem_cons.mp hc with rfl | h
      · exact Or.inl rfl
      · exact Or.inr (natChars_digits _ c h)
    · rw [if_neg hneg] at hc
      exact Or.inr (natChars_digits _ c hc)
  rcases hdig with rfl | hd
  · exact ⟨by decide, by decide, by decide, by decide⟩
  · obtain ⟨h48, h57⟩ := isDig_facts hd
    exact ⟨digit_ne h48 h57 (by decide), digit_ne h48 h57 (by decide),
      digit_ne h48 h57 (by decide), digit_ne h48 h57 (by decide)⟩

mutual
theorem scanVal : ∀ (v : JVal) (prev : List Char) (E : List JVal) (b : List Char)
    (d : Int), 1 ≤ d → bsRun prev % 2 = 0 →
    salvGo prev (render v) ⟨E, b, d, false⟩ = ⟨E, b ++ render v, d, false⟩
  | .null, prev, E, b, d, _, _ => salvGo_plain _ prev E b d (by decide)
  | .bool true, prev, E, b, d, _, _ => salvGo_plain _ prev E b d (by decide)
  | .bool false, prev, E, b, d, _, _ => salvGo_plain _ prev E b d (by decide)
  | .num n, prev, E, b, d, _, _ => salvGo_plain _ prev E b d (intChars_nospec n)
  | .str s, prev, E, b, d, _, hrun => salvGo_strToken s prev E b d hrun
  | .arr xs, prev, E, b, d, hd, hrun => by
      have hshape : render (.arr xs) = '[' :: (renderElems xs ++ [']']) := rfl
      rw [hshape]
      show salvGo ('[' :: prev) (renderElems xs ++ [']'])
          (salvStep prev '[' ⟨E, b, d, false⟩) = _
      rw [salvStep_other (by decide) (by decide) (by decide) (by decide), salvGo_append]
      rw [scanElems xs ('[' :: prev) E (b ++ ['[']) d hd (by rw [bsRun_cons_ne (by decide)])]
      show (salvStep ((renderElems xs).reverse ++ ('[' :: prev)) ']'
          ⟨E, (b ++ ['[']) ++ renderElems xs, d, false⟩ : SalvState) = _
      rw [salvStep_other (by decide) (by decide) (by decide) (by decide)]
      simp
  | .obj ms, prev, E, b, d, hd, hrun => by
      have hshape : render (.obj ms) = '{' :: (renderMembs ms ++ ['}']) := rfl
      rw [hshape]
      show salvGo ('{' :: prev) (renderMembs ms ++ ['}'])
          (salvStep prev '{' ⟨E, b, d, false⟩) = _
      rw [salvStep_open_deep (by omega), salvGo_append]
      rw [scanMembs ms ('{' :: prev) E (b ++ ['{']) (d + 1) (by omega)
        (by rw [bsRun_cons_ne (by decide)])]
      show (salvStep ((renderMembs ms).reverse ++ ('{' :: prev)) '}'
          ⟨E, (b ++ ['{']) ++ renderMembs ms, d + 1, false⟩ : SalvState) = _
      rw [salvStep_close_deep (by omega)]
      have hdep : d + 1 - 1 = d := by omega
      rw [hdep]
      simp
termination_by v _ _ _ _ _ _ => sizeOf v

theorem scanElems : ∀ (xs : List JVal) (prev : List Char) (E : List JVal)
    (b : List Char) (d : Int), 1 ≤ d → bsRun prev % 2 = 0 →
    salvGo prev (renderElems xs) ⟨E, b, d, false⟩ = ⟨E, b ++ renderElems xs, d, false⟩
  | [], _, E, b, d, _, _ => by
      show (⟨E, b, d, false⟩ : SalvState) = ⟨E, b ++ [], d, false⟩
      simp
  | [x], prev, E, b, d, hd, hrun => by
      show salvGo prev (render x) ⟨E, b, d, false⟩ = ⟨E, b ++ renderElems [x], d, false⟩
      rw [scanVal x prev E b d hd hrun]
      rfl
  | x :: y :: ys, prev, E, b, d, hd, hrun => by
      have hshape : renderElems (x :: y :: ys)
          = render x ++ (',' :: renderElems (y :: ys)) := rfl
      rw [hshape, salvGo_append]
      rw [scanVal x prev E b d hd hrun]
      show salvGo (',' :: ((render x).reverse ++ prev)) (renderElems (y :: ys))
          (salvStep ((render x).reverse ++ prev) ',' ⟨E, b ++ render x, d, false⟩) = _
      rw [salvStep_comma_deep (by omega)]
      rw [scanElems (y :: ys) _ E _ d hd (by rw [bsRun_cons_ne (by decide)])]
      simp
termination_by xs _ _ _ _ _ _ => sizeOf xs

theorem scanMembs : ∀ (ms : List (List Char × JVal)) (prev : List Char) (E : List JVal)
    (b : List Char) (d : Int), 1 ≤ d → bsRun prev % 2 = 0 →
    salvGo prev (renderMembs ms) ⟨E, b, d, false⟩ = ⟨E, b ++ renderMembs ms, d, false⟩
  | [], _, E, b, d, _, _ => by
      show (⟨E, b, d, false⟩ : SalvState) = ⟨E, b ++ [], d, false⟩
      simp
  | [(k, v)], prev, E, b, d, hd, hrun => by
      have hshape : renderMembs [(k, v)] = renderStr k ++ (':' :: render v) := rfl
      rw [hshape, salvGo_append]
      rw [salvGo_strToken k prev E b d hrun]
      show salvGo (':' :: ((renderStr k).reverse ++ prev)) (render v)
          (salvStep ((renderStr k).reverse ++ prev) ':' ⟨E, b ++ renderStr k, d, false⟩) = _
      rw [salvStep_other (by decide) (by decide) (by decide) (by decide)]
      rw [scanVal v _ E _ d hd (by rw [bsRun_cons_ne (by decide)])]
      simp
  | (k, v) :: m :: ms', prev, E, b, d, hd, hrun => by
      have hshape : renderMembs ((k, v) :: m :: ms')
          = renderStr k ++ (':' :: (render v ++ (',' :: renderMembs (m :: ms')))) := by
        show renderStr k ++ ':' :: render v ++ ',' :: renderMembs (m :: ms') = _
        simp
      rw [hshape, salvGo_append]
      rw [salvGo_strToken k prev E b d hrun]
      show salvGo (':' :: ((renderStr k).reverse ++ prev)) (render v ++ (',' :: renderMembs (m :: ms')))
          (salvStep ((renderStr k).reverse ++ prev) ':' ⟨E, b ++ renderStr k, d, false⟩) = _
      rw [salvStep_other (by decide) (by decide) (by decide) (by decide)]
      rw [salvGo_append]
      rw [scanVal v _ E _ d hd (by rw [bsRun_cons_ne (by decide)])]
      show salvGo (',' :: ((render v).reverse ++ (':' :: ((renderStr k).reverse ++ prev))))
          (renderMembs (m :: ms'))
          (salvStep ((render v).reverse ++ (':' :: ((renderStr k).reverse ++ prev))) ','
            ⟨E, (b ++ renderStr k ++ [':']) ++ render v, d, false⟩) = _
      rw [salvStep_comma_deep (by omega)]
      rw [scanMembs (m :: ms') _ E _ d hd (by rw [bsRun_cons_ne (by decide)])]
      simp [hshape]
termination_by ms _ _ _ _ _ _ => sizeOf ms
end

theorem trimL_cons_head {c : Char} (hc : jsWS c = false) (u : List Char) :
    (trimL (c :: u)).head? = some c := by
  unfold trimL
  rw [dropWS_cons_false hc]
  have hne : dropEndWS (c :: u) ≠ [] := by
    intro h
    have h2 : (c :: u).reverse.dropWhile jsWS = [] := by
      have := congrArg List.reverse h
      simpa [dropEndWS] using this
    have h3 := List.dropWhile_eq_nil_iff.mp h2
    have h4 : jsWS c = true := h3 c (by simp)
    rw [hc] at h4
    exact Bool.noConfusion h4
  obtain ⟨s, hs⟩ := dropEndWS_isPre (c :: u)
  match hE : dropEndWS (c :: u) with
  | [] => exact absurd hE hne
  | x :: xs =>
      rw [hE] at hs
      simp only [List.cons_append] at hs
      have := (List.cons.inj hs).1
      simp [this]

/-- The closing brace of a top-level object: depth drops to zero, the buffer
parses, the object is appended to the extracted list and the buffer clears. -/
theorem salvStep_extract (prev : List Char) (E : List JVal) (b : List Char) (v : JVal)
    (hhead : (trimL (b ++ ['}'])).head? = some '{')
    (hparse : jsonParse (b ++ ['}']) = some v) :
    salvStep prev '}' ⟨E, b, 1, false⟩ = ⟨E ++ [v], [], 0, false⟩ := by
  simp [salvStep, hhead, hparse]

/-- Scanning a whole rendered object from top level extracts exactly that
object and leaves a clean top-level state. -/
theorem scanObjTop (ms : List (List Char × JVal)) (prev : List Char) (E : List JVal)
    (b : List Char) (hg : Good (.obj ms) = true) :
    salvGo prev (render (.obj ms)) ⟨E, b, 0, false⟩ = ⟨E ++ [.obj ms], [], 0, false⟩ := by
  have hshape : render (.obj ms) = '{' :: (renderMembs ms ++ ['}']) := rfl
  rw [hshape]
  show salvGo ('{' :: prev) (renderMembs ms ++ ['}'])
      (salvStep prev '{' ⟨E, b, 0, false⟩) = _
  rw [salvStep_open_top, salvGo_append]
  rw [scanMembs ms ('{' :: prev) E ['{'] 1 (by omega) (by rw [bsRun_cons_ne (by decide)])]
  show (salvStep ((renderMembs ms).reverse ++ ('{' :: prev)) '}'
      ⟨E, '{' :: renderMembs ms, 1, false⟩ : SalvState) = _
  have hbuf : ('{' :: renderMembs ms) ++ ['}'] = render (.obj ms) := by
    rw [hshape]
    simp
  refine salvStep_extract _ E _ (.obj ms) ?_ ?_
  · rw [hbuf, hshape]
    exact trimL_cons_head (by decide) _
  · rw [hbuf]
    exact jsonParse_render _ hg

/-- Scanning a comma-separated list of rendered objects from a clean
top-level state extracts exactly those objects, in order. -/
theorem scanObjList :
    ∀ (objs : List JVal) (prev : List Char) (E : List JVal),
      (∀ o ∈ objs, Good o = true ∧ ∃ ms, o = .obj ms) →
      salvGo prev (renderElems objs) ⟨E, [], 0, false⟩ = ⟨E ++ objs, [], 0, false⟩
  | [], _, E, _ => by
      show (⟨E, [], 0, false⟩ : SalvState) = ⟨E ++ [], [], 0, false⟩
      simp
  | [o], prev, E, h => by
      obtain ⟨hg, ms, rfl⟩ := h o (by simp)
      show salvGo prev (render (.obj ms)) ⟨E, [], 0, false⟩ = ⟨E ++ [.obj ms], [], 0, false⟩
      exact scanObjTop ms prev E [] hg
  | o :: o2 :: rest, prev, E, h => by
      obtain ⟨hg, ms, rfl⟩ := h o (by simp)
      have hshape : renderElems (.obj ms :: o2 :: rest)
          = render (.obj ms) ++ (',' :: renderElems (o2 :: rest)) := rfl
      rw [hshape, salvGo_append]
      rw [scanObjTop ms prev E [] hg]
      show salvGo (',' :: ((render (.obj ms)).reverse ++ prev)) (renderElems (o2 :: rest))
          (salvStep ((render (.obj ms)).reverse ++ prev) ','
            ⟨E ++ [.obj ms], [], 0, false⟩) = _
      rw [salvStep_comma_top]
      rw [scanObjList (o2 :: rest) (',' :: ((render (.obj ms)).reverse ++ prev))
        (E ++ [JVal.obj ms]) (fun x hx => h x (by simp [hx]))]
      simp

theorem pfx_split {q a b : List Char} (h : q <+: a ++ b) :
    q <+: a ∨ ∃ r, q = a ++ r ∧ r <+: b := by
  induction a generalizing q with
  | nil => exact Or.inr ⟨q, rfl, h⟩
  | cons x a ih =>
      cases q with
      | nil => exact Or.inl List.nil_prefix
      | cons y q =>
          rw [List.cons_append] at h
          obtain ⟨rfl, h2⟩ := List.cons_prefix_cons.mp h
          rcases ih h2 with h3 | ⟨r, rfl, h4⟩
          · exact Or.inl (List.cons_prefix_cons.mpr ⟨rfl, h3⟩)
          · exact Or.inr ⟨r, rfl, h4⟩

theorem pfx_singleton {q : List Char} {x : Char} (h : q <+: [x]) :
    q = [] ∨ q = [x] := by
  cases q with
  | nil => exact Or.inl rfl
  | cons y q =>
      obtain ⟨rfl, h2⟩ := List.cons_prefix_cons.mp h
      have := List.prefix_nil.mp h2
      subst this
      exact Or.inr rfl

theorem pfx_snoc_proper {q a : List Char} {x : Char}
    (h : q <+: a ++ [x]) (hne : q ≠ a ++ [x]) : q <+: a := by
  rcases pfx_split h with h1 | ⟨r, rfl, h2⟩
  · exact h1
  · rcases pfx_singleton h2 with rfl | rfl
    · simp
    · exact absurd rfl hne

theorem pfx_cons {q : List Char} {x : Char} {l : List Char} (h : q <+: x :: l) :
    q = [] ∨ ∃ r, q = x :: r ∧ r <+: l := by
  cases q with
  | nil => exact Or.inl rfl
  | cons y q =>
      obtain ⟨rfl, h2⟩ := List.cons_prefix_cons.mp h
      exact Or.inr ⟨q, rfl, h2⟩

theorem escStr_pfx :
    ∀ (u q : List Char), q <+: escStr u →
      ∃ u1 t, q = escStr u1 ++ t ∧ (t = [] ∨ t = ['\\'])
  | [], q, h => by
      have : q = [] := List.prefix_nil.mp (by simpa [escStr] using h)
      exact ⟨[], [], by simp [this, escStr], Or.inl rfl⟩
  | c :: u, q, h => by
      have hcons : escStr (c :: u) = escChar c ++ escStr u := by
        simp [escStr, List.flatMap_cons]
      rw [hcons] at h
      rcases pfx_split h with h1 | ⟨r, rfl, h2⟩
      · by_cases hq : c = '"'
        · subst hq
          rw [show escChar '"' = ['\\', '"'] from rfl] at h1
          rcases pfx_cons h1 with rfl | ⟨r, rfl, hr⟩
          · exact ⟨[], [], by simp [escStr], Or.inl rfl⟩
          · rcases pfx_singleton hr with rfl | rfl
            · exact ⟨[], ['\\'], by simp [escStr], Or.inr rfl⟩
            · refine ⟨['"'], [], ?_, Or.inl rfl⟩
              simp [escStr, List.flatMap_cons, escChar]
        · by_cases hb : c = '\\'
          · subst hb
            rw [show escChar '\\' = ['\\', '\\'] from rfl] at h1
            rcases pfx_cons h1 with rfl | ⟨r, rfl, hr⟩
            · exact ⟨[], [], by simp [escStr], Or.inl rfl⟩
            · rcases pfx_singleton hr with rfl | rfl
              · exact ⟨[], ['\\'], by simp [escStr], Or.inr rfl⟩
              · refine ⟨['\\'], [], ?_, Or.inl rfl⟩
                simp [escStr, List.flatMap_cons, escChar]
          · rw [show escChar c = [c] by simp [escChar, hq, hb]] at h1
            rcases pfx_singleton h1 with rfl | rfl
            · exact ⟨[], [], by simp [escStr], Or.inl rfl⟩
            · refine ⟨[c], [], ?_, Or.inl rfl⟩
              simp [escStr, List.flatMap_cons, escChar, hq, hb]
      · obtain ⟨u1, t, rfl, ht⟩ := escStr_pfx u r h2
        refine ⟨c :: u1, t, ?_, ht⟩
        simp [escStr, List.flatMap_cons]

theorem pfxStrBody (u q prev : List Char) (E : List JVal) (b : List Char) (d : Int)
    (hrun : bsRun prev % 2 = 0) (h : q <+: escStr u) :
    (salvGo prev q ⟨E, b, d, true⟩).ext = E := by
  obtain ⟨u1, t, rfl, ht⟩ := escStr_pfx u q h
  rw [salvGo_append, salvGo_escBody u1 prev E b d hrun]
  rcases ht with rfl | rfl
  · rfl
  · show (salvStep ((escStr u1).reverse ++ prev) '\\'
        ⟨E, b ++ escStr u1, d, true⟩ : SalvState).ext = E
    rw [salvStep_inStr (by decide)]

theorem pfxStrToken (u q prev : List Char) (E : List JVal) (b : List Char) (d : Int)
    (hrun : bsRun prev % 2 = 0) (h : q <+: renderStr u) :
    (salvGo prev q ⟨E, b, d, false⟩).ext = E := by
  rw [show renderStr u = '"' :: (escStr u ++ ['"']) by simp [renderStr]] at h
  rcases pfx_cons h with rfl | ⟨r, rfl, hr⟩
  · rfl
  · show (salvGo ('"' :: prev) r (salvStep prev '"' ⟨E, b, d, false⟩)).ext = E
    rw [salvStep_quote_open hrun]
    rcases pfx_split hr with h1 | ⟨r2, rfl, h2⟩
    · exact pfxStrBody u r ('"' :: prev) E (b ++ ['"']) d
        (by rw [bsRun_cons_ne (by decide)]) h1
    · rcases pfx_singleton h2 with rfl | rfl
      · rw [List.append_nil]
        exact pfxStrBody u (escStr u) ('"' :: prev) E (b ++ ['"']) d
          (by rw [bsRun_cons_ne (by decide)]) (List.prefix_refl _)
      · rw [salvGo_append,
          salvGo_escBody u ('"' :: prev) E (b ++ ['"']) d (by rw [bsRun_cons_ne (by decide)])]
        show (salvStep ((escStr u).reverse ++ ('"' :: prev)) '"'
            ⟨E, (b ++ ['"']) ++ escStr u, d, true⟩ : SalvState).ext = E
        rw [salvStep_quote_close (bsRun_escStr u _ (by rw [bsRun_cons_ne (by decide)]))]

theorem salvGo_plain_ext (q prev : List Char) (E : List JVal) (b : List Char) (d : Int)
    (h : ∀ c ∈ q, c ≠ '"' ∧ c ≠ '{' ∧ c ≠ '}' ∧ c ≠ ',') :
    (salvGo prev q ⟨E, b, d, false⟩).ext = E := by
  rw [salvGo_plain q prev E b d h]

mutual
theorem pfxVal : ∀ (v : JVal) (q prev : List Char) (E : List JVal) (b : List Char)
    (d : Int), 1 ≤ d → bsRun prev % 2 = 0 → q <+: render v →
    (salvGo prev q ⟨E, b, d, false⟩).ext = E
  | .null, q, prev, E, b, d, _, _, h =>
      salvGo_plain_ext q prev E b d
        (fun c hc => by
          have := h.subset hc
          fin_cases this <;> exact ⟨by decide, by decide, by decide, by decide⟩)
  | .bool true, q, prev, E, b, d, _, _, h =>
      salvGo_plain_ext q prev E b d
        (fun c hc => by
          have := h.subset hc
          fin_cases this <;> exact ⟨by decide, by decide, by decide, by decide⟩)
  | .bool false, q, prev, E, b, d, _, _, h =>
      salvGo_plain_ext q prev E b d
        (fun c hc => by
          have := h.subset hc
          fin_cases this <;> exact ⟨by decide, by decide, by decide, by decide⟩)
  | .num n, q, prev, E, b, d, _, _, h =>
      salvGo_plain_ext q prev E b d
        (fun c hc => intChars_nospec n c (h.subset hc))
  | .str s, q, prev, E, b, d, _, hrun, h =>
      pfxStrToken s q prev E b d hrun h
  | .arr xs, q, prev, E, b, d, hd, hrun, h => by
      rw [show render (.arr xs) = '[' :: (renderElems xs ++ [']']) from rfl] at h
      rcases pfx_cons h with rfl | ⟨r, rfl, hr⟩
      · rfl
      · show (salvGo ('[' :: prev) r (salvStep prev '[' ⟨E, b, d, false⟩)).ext = E
        rw [salvStep_other (by decide) (by decide) (by decide) (by decide)]
        rcases pfx_split hr with h1 | ⟨r2, rfl, h2⟩
        · exact pfxElems xs r ('[' :: prev) E (b ++ ['[']) d hd
            (by rw [bsRun_cons_ne (by decide)]) h1
        · rcases pfx_singleton h2 with rfl | rfl
          · rw [List.append_nil]
            have := scanElems xs ('[' :: prev) E (b ++ ['[']) d hd
              (by rw [bsRun_cons_ne (by decide)])
            rw [this]
          · rw [salvGo_append, scanElems xs ('[' :: prev) E (b ++ ['[']) d hd
              (by rw [bsRun_cons_ne (by decide)])]
            show (salvStep ((renderElems xs).reverse ++ ('[' :: prev)) ']'
                ⟨E, (b ++ ['[']) ++ renderElems xs, d, false⟩ : SalvState).ext = E
            rw [salvStep_other (by decide) (by decide) (by decide) (by decide)]
  | .obj ms, q, prev, E, b, d, hd, hrun, h => by
      rw [show render (.obj ms) = '{' :: (renderMembs ms ++ ['}']) from rfl] at h
      rcases pfx_cons h with rfl | ⟨r, rfl, hr⟩
      · rfl
      · show (salvGo ('{' :: prev) r (salvStep prev '{' ⟨E, b, d, false⟩)).ext = E
        rw [salvStep_open_deep (by omega)]
        rcases pfx_split hr with h1 | ⟨r2, rfl, h2⟩
        · exact pfxMembs ms r ('{' :: prev) E (b ++ ['{']) (d + 1) (by omega)
            (by rw [bsRun_cons_ne (by decide)]) h1
        · rcases pfx_singleton h2 with rfl | rfl
          · rw [List.append_nil]
            have := scanMembs ms ('{' :: prev) E (b ++ ['{']) (d + 1) (by omega)
              (by rw [bsRun_cons_ne (by decide)])
            rw [this]
          · rw [salvGo_append, scanMembs ms ('{' :: prev) E (b ++ ['{']) (d + 1) (by omega)
              (by rw [bsRun_cons_ne (by decide)])]
            show (salvStep ((renderMembs ms).reverse ++ ('{' :: prev)) '}'
                ⟨E, (b ++ ['{']) ++ renderMembs ms, d + 1, false⟩ : SalvState).ext = E
            rw [salvStep_close_deep (by omega)]
termination_by v _ _ _ _ _ _ _ _ => sizeOf v

theorem pfxElems : ∀ (xs : List JVal) (q prev : List Char) (E : List JVal)
    (b : List Char) (d : Int), 1 ≤ d → bsRun prev % 2 = 0 → q <+: renderElems xs →
    (salvGo prev q ⟨E, b, d, false⟩).ext = E
  | [], q, prev, E, b, d, _, _, h => by
      have : q = [] := List.prefix_nil.mp (by simpa [renderElems] using h)
      subst this
      rfl
  | [x], q, prev, E, b, d, hd, hrun, h =>
      pfxVal x q prev E b d hd hrun (by simpa [renderElems] using h)
  | x :: y :: ys, q, prev, E, b, d, hd, hrun, h => by
      rw [show renderElems (x :: y :: ys) = render x ++ (',' :: renderElems (y :: ys))
        from rfl] at h
      rcases pfx_split h with h1 | ⟨r, rfl, hr⟩
      · exact pfxVal x q prev E b d hd hrun h1
      · rw [salvGo_append, scanVal x prev E b d hd hrun]
        rcases pfx_cons hr with rfl | ⟨r2, rfl, hr2⟩
        · rfl
        · show (salvGo (',' :: ((render x).reverse ++ prev)) r2
              (salvStep ((render x).reverse ++ prev) ','
                ⟨E, b ++ render x, d, false⟩)).ext = E
          rw [salvStep_comma_deep (by omega)]
          exact pfxElems (y :: ys) r2 _ E _ d hd (by rw [bsRun_cons_ne (by decide)]) hr2
termination_by xs _ _ _ _ _ _ _ _ => sizeOf xs

theorem pfxMembs : ∀ (ms : List (List Char × JVal)) (q prev : List Char) (E : List JVal)
    (b : List Char) (d : Int), 1 ≤ d → bsRun prev % 2 = 0 → q <+: renderMembs ms →
    (salvGo prev q ⟨E, b, d, false⟩).ext = E
  | [], q, prev, E, b, d, _, _, h => by
      have : q = [] := List.prefix_nil.mp (by simpa [renderMembs] using h)
      subst this
      rfl
  | [(k, v)], q, prev, E, b, d, hd, hrun, h => by
      rw [show renderMembs [(k, v)] = renderStr k ++ (':' :: render v) from rfl] at h
      rcases pfx_split h with h1 | ⟨r, rfl, hr⟩
      · exact pfxStrToken k q prev E b d hrun h1
      · rw [salvGo_append, salvGo_strToken k prev E b d hrun]
        rcases pfx_cons hr with rfl | ⟨r2, rfl, hr2⟩
        · rfl
        · show (salvGo (':' :: ((renderStr k).reverse ++ prev)) r2
              (salvStep ((renderStr k).reverse ++ prev) ':'
                ⟨E, b ++ renderStr k, d, false⟩)).ext = E
          rw [salvStep_other (by decide) (by decide) (by decide) (by decide)]
          exact pfxVal v r2 _ E _ d hd (by rw [bsRun_cons_ne (by decide)]) hr2
  | (k, v) :: m :: ms', q, prev, E, b, d, hd, hrun, h => by
      have hshape : renderMembs ((k, v) :: m :: ms')
          = renderStr k ++ (':' :: (render v ++ (',' :: renderMembs (m :: ms')))) := by
        show renderStr k ++ ':' :: render v ++ ',' :: renderMembs (m :: ms') = _
        simp
      rw [hshape] at h
      rcases pfx_split h with h1 | ⟨r, rfl, hr⟩
      · exact pfxStrToken k q prev E b d hrun h1
      · rw [salvGo_append, salvGo_strToken k prev E b d hrun]
        rcases pfx_cons hr with rfl | ⟨r2, rfl, hr2⟩
        · rfl
        · show (salvGo (':' :: ((renderStr k).reverse ++ prev)) r2
              (salvStep ((renderStr k).reverse ++ prev) ':'
                ⟨E, b ++ renderStr k, d, false⟩)).ext = E
          rw [salvStep_other (by decide) (by decide) (by decide) (by decide)]
          rcases pfx_split hr2 with h2 | ⟨r3, rfl, hr3⟩
          · exact pfxVal v r2 _ E _ d hd (by rw [bsRun_cons_ne (by decide)]) h2
          · rw [salvGo_append,
              scanVal v _ E _ d hd (by rw [bsRun_cons_ne (by decide)])]
            rcases pfx_cons hr3 with rfl | ⟨r4, rfl, hr4⟩
            · rfl
            · show (salvGo (',' :: ((render v).reverse ++ (':' :: ((renderStr k).reverse ++ prev)))) r4
                  (salvStep ((render v).reverse ++ (':' :: ((renderStr k).reverse ++ prev))) ','
                    ⟨E, (b ++ renderStr k ++ [':']) ++ render v, d, false⟩)).ext = E
              rw [salvStep_comma_deep (by omega)]
              exact pfxMembs (m :: ms') r4 _ E _ d hd
                (by rw [bsRun_cons_ne (by decide)]) hr4
termination_by ms _ _ _ _ _ _ _ _ => sizeOf ms
end

theorem pfxObjTop (ms : List (List Char × JVal)) (q prev : List Char) (E : List JVal)
    (hq : q <+: render (.obj ms)) (hne : q ≠ render (.obj ms)) :
    (salvGo prev q ⟨E, [], 0, false⟩).ext = E := by
  rw [show render (.obj ms) = '{' :: (renderMembs ms ++ ['}']) from rfl] at hq hne
  rcases pfx_cons hq with rfl | ⟨r, rfl, hr⟩
  · rfl
  · have hrne : r ≠ renderMembs ms ++ ['}'] := fun h => hne (by rw [h])
    have hrm : r <+: renderMembs ms := pfx_snoc_proper hr hrne
    show (salvGo ('{' :: prev) r (salvStep prev '{' ⟨E, [], 0, false⟩)).ext = E
    rw [salvStep_open_top]
    exact pfxMembs ms r _ E ['{'] 1 (by omega) (by rw [bsRun_cons_ne (by decide)]) hrm

/-- The salvage pass on a truncated interior: each complete rendered object is
extracted, the truncated trailing object contributes nothing. -/
theorem salvage_exact (objs : List JVal) (ms : List (List Char × JVal)) (p : List Char)
    (hobjs : ∀ o ∈ objs, Good o = true ∧ ∃ m, o = JVal.obj m)
    (hp : p <+: render (.obj ms)) (hpne : p ≠ render (.obj ms)) :
    salvage (renderElems objs ++ ',' :: p) = objs := by
  unfold salvage
  rw [salvGo_append, scanObjList objs [] [] hobjs]
  show (salvGo (',' :: ((renderElems objs).reverse ++ [])) p
      (salvStep ((renderElems objs).reverse ++ []) ','
        ⟨[] ++ objs, [], 0, false⟩)).ext = objs
  rw [show ([] ++ objs : List JVal) = objs from rfl, salvStep_comma_top]
  exact pfxObjTop ms p _ objs hp hpne

theorem dropEndWS_append_ne (a b : List Char) (h : dropEndWS b ≠ []) :
    dropEndWS (a ++ b) = a ++ dropEndWS b := by
  have h2 : b.reverse.dropWhile jsWS ≠ [] := by
    intro h3
    apply h
    simp [dropEndWS, h3]
  unfold dropEndWS
  rw [List.reverse_append, dropWhile_append_ne_nil _ _ h2]
  simp [dropEndWS]

theorem dropEndWS_cons_ne_nil {c : Char} (hc : jsWS c = false) (u : List Char) :
    dropEndWS (c :: u) ≠ [] := by
  intro h
  have h2 : (c :: u).reverse.dropWhile jsWS = [] := by
    have := congrArg List.reverse h
    simpa [dropEndWS] using this
  have h4 : jsWS c = true := List.dropWhile_eq_nil_iff.mp h2 c (by simp)
  rw [hc] at h4
  exact Bool.noConfusion h4

theorem renderElems_head (x : JVal) (xs : List JVal) :
    ∃ c t, renderElems (x :: xs) = c :: t ∧ jsWS c = false := by
  obtain ⟨c, t, hct, hws, -, -⟩ := renderHead x
  cases xs with
  | nil => exact ⟨c, t, hct, hws⟩
  | cons y ys =>
      refine ⟨c, t ++ ',' :: renderElems (y :: ys), ?_, hws⟩
      show render x ++ ',' :: renderElems (y :: ys) = _
      rw [hct]
      simp

/-- The decoder when the fence is absent, the strict parse fails, the outer
shape is an array delimiter pair, and salvage finds objects: it returns the
salvaged sequence. -/
theorem parseJsonFromText_salvaged (text : List Char) (objs : List JVal)
    (hfence : fenceInner (trimL text) = none)
    (hfail : jsonParse (trimL text) = none)
    (hhead : (trimL text).head? = some '[')
    (hlast : (trimL text).getLast? = some ']')
    (hsalv : salvage (trimL (((trimL text).drop 1).take ((trimL text).length - 2)))
      = objs)
    (hne : objs ≠ []) :
    parseJsonFromText text true = some (.arr objs) := by
  simp only [parseJsonFromText, hfence, hfail, hhead, hlast, hsalv]
  simp [hne]

/-- C6: for every array-expected input consisting of well-formed JSON objects
separated by commas inside array brackets, followed by malformed trailing
content produced by truncating a further object after a separating comma
(whole input failing strict parse), the decoder's iterative salvage returns
exactly those objects, in their original order, and nothing else. -/
theorem decode_salvages_exactly_the_objects (objs : List JVal)
    (ms : List (List Char × JVal)) (p : List Char)
    (hne : objs ≠ [])
    (hobjs : ∀ o ∈ objs, Good o = true ∧ ∃ m, o = JVal.obj m)
    (hp : p <+: render (.obj ms)) (hpne : p ≠ render (.obj ms))
    (hfail : jsonParse ('[' :: ((renderElems objs ++ ',' :: p) ++ [']'])) = none) :
    parseJsonFromText ('[' :: ((renderElems objs ++ ',' :: p) ++ [']'])) true
      = some (.arr objs) := by
  match objs, hne with
  | o0 :: rest, _ =>
  have hmid : ∃ c t, renderElems (o0 :: rest) ++ ',' :: p = c :: t ∧ jsWS c = false := by
    obtain ⟨c, t, hct, hws⟩ := renderElems_head o0 rest
    exact ⟨c, t ++ ',' :: p, by rw [hct]; simp, hws⟩
  obtain ⟨c, t, hct, hws⟩ := hmid
  -- the trimmed input is the input itself
  have htrim : trimL ('[' :: ((renderElems (o0 :: rest) ++ ',' :: p) ++ [']']))
      = '[' :: ((renderElems (o0 :: rest) ++ ',' :: p) ++ [']']) := by
    unfold trimL
    rw [dropWS_cons_false (by decide)]
    rw [show '[' :: ((renderElems (o0 :: rest) ++ ',' :: p) ++ [']'])
        = ('[' :: (renderElems (o0 :: rest) ++ ',' :: p)) ++ [']'] by simp]
    rw [dropEndWS_snoc_false (by decide)]
  -- the trimmed interior
  have hp2 : ∃ p2, trimL (renderElems (o0 :: rest) ++ ',' :: p)
      = renderElems (o0 :: rest) ++ ',' :: p2 ∧ p2 <+: render (.obj ms)
      ∧ p2 ≠ render (.obj ms) := by
    have hdw : dropWS (renderElems (o0 :: rest) ++ ',' :: p)
        = renderElems (o0 :: rest) ++ ',' :: p := by
      rw [hct]
      exact dropWS_cons_false hws _
    rcases pfx_cons hp with rfl | ⟨q, rfl, hq⟩
    · refine ⟨[], ?_, List.nil_prefix, hpne⟩
      unfold trimL
      rw [hdw]
      rw [show renderElems (o0 :: rest) ++ ',' :: ([] : List Char)
          = renderElems (o0 :: rest) ++ [','] by simp]
      rw [dropEndWS_snoc_false (by decide)]
    · have hdne : dropEndWS ('{' :: q) ≠ [] := dropEndWS_cons_ne_nil (by decide) q
      obtain ⟨s, hs⟩ := dropEndWS_isPre ('{' :: q)
      have hplen : ('{' :: q).length < (render (.obj ms)).length := by
        have hle := hp.length_le
        rcases Nat.lt_or_ge ('{' :: q).length (render (.obj ms)).length with h | h
        · exact h
        · exact absurd (List.IsPrefix.eq_of_length hp (by omega)) hpne
      refine ⟨dropEndWS ('{' :: q), ?_, ?_, ?_⟩
      · unfold trimL
        rw [hdw]
        rw [show renderElems (o0 :: rest) ++ ',' :: ('{' :: q)
            = (renderElems (o0 :: rest) ++ [',']) ++ ('{' :: q) by simp]
        rw [dropEndWS_append_ne _ _ hdne]
        simp
      · exact List.IsPrefix.trans ⟨s, hs.symm⟩ hp
      · intro heq
        have : (render (.obj ms)).length ≤ ('{' :: q).length := by
          have := congrArg List.length heq
          have hlen2 := congrArg List.length hs
          simp only [List.length_append] at hlen2
          omega
        omega
  obtain ⟨p2, htrimmid, hp2pfx, hp2ne⟩ := hp2
  refine parseJsonFromText_salvaged _ (o0 :: rest) ?_ ?_ ?_ ?_ ?_ (by simp)
  · rw [htrim]
    apply fenceInner_eq_none
    intro htake
    obtain ⟨r, hr⟩ := take3_backtick htake
    exact absurd (List.cons.inj hr).1 (by decide)
  · rw [htrim]
    exact hfail
  · rw [htrim]
    rfl
  · rw [htrim]
    rw [show '[' :: ((renderElems (o0 :: rest) ++ ',' :: p) ++ [']'])
        = ('[' :: (renderElems (o0 :: rest) ++ ',' :: p)) ++ [']'] by simp]
    exact List.getLast?_concat _
  · rw [htrim]
    have hdrop : (('[' :: ((renderElems (o0 :: rest) ++ ',' :: p) ++ [']'])).drop 1).take
        (('[' :: ((renderElems (o0 :: rest) ++ ',' :: p) ++ [']'])).length - 2)
        = renderElems (o0 :: rest) ++ ',' :: p := by
      have hlen3 : ('[' :: ((renderElems (o0 :: rest) ++ ',' :: p) ++ [']'])).length - 2
          = (renderElems (o0 :: rest) ++ ',' :: p).length := by
        simp only [List.length_cons, List.length_append, List.length_nil]
        omega
      show ((renderElems (o0 :: rest) ++ ',' :: p) ++ [']']).take
          (('[' :: ((renderElems (o0 :: rest) ++ ',' :: p) ++ [']'])).length - 2)
          = renderElems (o0 :: rest) ++ ',' :: p
      rw [hlen3]
      exact List.take_left ..
    rw [hdrop, htrimmid]
    exact salvage_exact (o0 :: rest) ms p2 hobjs hp2pfx hp2ne

theorem decode_salvages_exactly_the_objects_witness :
    (([JVal.obj [("a".toList, .num 1)]] : List JVal) ≠ [] ∧
     (∀ o ∈ [JVal.obj [("a".toList, .num 1)]], Good o = true ∧ ∃ m, o = JVal.obj m) ∧
     ("\x7b\"b\"".toList <+: render (.obj [("b".toList, .num 2)])) ∧
     "\x7b\"b\"".toList ≠ render (.obj [("b".toList, .num 2)]) ∧
     jsonParse ('[' :: ((renderElems [JVal.obj [("a".toList, .num 1)]]
        ++ ',' :: "\x7b\"b\"".toList) ++ [']'])) = none) ∧
    parseJsonFromText ('[' :: ((renderElems [JVal.obj [("a".toList, .num 1)]]
        ++ ',' :: "\x7b\"b\"".toList) ++ [']'])) true
      = some (.arr [JVal.obj [("a".toList, .num 1)]]) := by
  have hobjs : ∀ o ∈ [JVal.obj [("a".toList, .num 1)]], Good o = true ∧ ∃ m, o = JVal.obj m := by
    intro o ho
    rw [List.mem_singleton] at ho
    subst ho
    exact ⟨rfl, _, rfl⟩
  have hpfx : "\x7b\"b\"".toList <+: render (.obj [("b".toList, .num 2)]) :=
    ⟨":2\x7d".toList, rfl⟩
  have hne2 : "\x7b\"b\"".toList ≠ render (.obj [("b".toList, .num 2)]) := by
    intro h
    have h1 : ("\x7b\"b\"".toList : List Char).length = 4 := rfl
    have h2 : (render (.obj [("b".toList, .num 2)])).length = 7 := rfl
    rw [h] at h1
    omega
  refine ⟨⟨by simp, hobjs, hpfx, hne2, rfl⟩, ?_⟩
  exact decode_salvages_exactly_the_objects _ _ _ (by simp) hobjs hpfx hne2 rfl


end DealDigger
